import Mathlib

/-!
# Convolutional layer (`ml::conv_layer::Conv`)

A shallow embedding of `cpp/source/ml/conv_layer/conv.cpp` and of the
declarations in `cpp/include/ml/conv_layer/conv.h`.

Modelling decisions.

* The layer is embedded twice. In `Conv` the `double` values stored in the
  layer and in argument matrices are exact rationals (`ℚ`): every stored
  value is finite and arithmetic does not round. The learning rate handed to
  `optimize` is the one scalar for which the non-finite values matter, so
  that argument has the type `Double`, a rational or one of the IEEE
  specials. `Conv` carries the properties of shapes, flags, frames and
  resets, and of the values where no operation rounds.
* In `ConvOf α` the scalars have an arbitrary type with arbitrary operations
  `Arith α`; `binary64` is the arithmetic of IEEE 754 `double`. The
  properties of the computed values are stated over `ConvOf`, every
  operation of the source being one operation of the arithmetic, in the
  order of the loops.
* `Matrix2d` is `std::vector<std::vector<double>>`: a list of rows, possibly
  ragged. `m[i][j]` is `Matrix2d.at`, the assignment `m[i][j] = v` is
  `Matrix2d.put`. Both are total: a read outside the buffer yields `0` and a
  write outside the buffer changes nothing.
* `std::size_t` values are natural numbers. The only size computation that
  could wrap, `inputSize + 2 * padOffset`, comes after the validation of the
  kernel size and would need an `inputSize` within `10` of `2^64`, for which
  no `inputSize x inputSize` matrix can be allocated.
* A member function is a function from the state of the object (and its
  arguments) to the returned flag and the state after the call. A `for`
  loop over `0 .. n-1` is `forLoop n`.
* The helpers of `ml/utils.h` are not part of the sources at hand. Each one
  is modelled from the specification of the layer and marked so.
-/

namespace ConvLayer

/-! ## Matrices -/

/-- One row of a matrix (`std::vector<double>`). -/
abbrev Matrix1d := List ℚ

/-- A matrix as a vector of rows (`std::vector<std::vector<double>>`). -/
abbrev Matrix2d := List (List ℚ)

/-- Read `m[i][j]`; a read outside the buffer yields `0`. -/
def Matrix2d.at (m : Matrix2d) (i j : Nat) : ℚ :=
  (m.getD i []).getD j 0

/-- Assign `m[i][j] = v`; a write outside the buffer changes nothing. -/
def Matrix2d.put (m : Matrix2d) (i j : Nat) (v : ℚ) : Matrix2d :=
  m.set i ((m.getD i []).set j v)

/-- The matrix `m` has exactly `n` rows, each of length `n`. -/
def Matrix2d.IsSquareOf (m : Matrix2d) (n : Nat) : Prop :=
  m.length = n ∧ ∀ row ∈ m, row.length = n

instance (m : Matrix2d) (n : Nat) : Decidable (m.IsSquareOf n) := by
  unfold Matrix2d.IsSquareOf
  infer_instance

/-- The loop `for (std::size_t i{}; i < n; ++i) { st = body i st; }`. -/
def forLoop {σ : Type} (n : Nat) (body : Nat → σ → σ) (init : σ) : σ :=
  (List.range n).foldl (fun st i => body i st) init

/-! ## Helpers of `ml/utils.h` -/

/-- Modelled from the spec: `initMatrix(matrix, size)` of `ml/utils.h`, which
is missing from the sources; the layer "allocates every buffer to its derived
size, zero-fills all of them", every matrix being square. -/
def initMatrixSize (size : Nat) : Matrix2d :=
  List.replicate size (List.replicate size 0)

/-- Modelled from the spec: `initMatrix(matrix)` of `ml/utils.h`, which is
missing from the sources; it zero-fills a buffer in place ("gradient buffers
are zeroed at the start of every backpropagate call", "buffers always sized"
as at construction). -/
def initMatrix (m : Matrix2d) : Matrix2d :=
  m.map (fun row => row.map (fun _ => 0))

/-- Modelled from the spec: `matchDimensions(expected, actual, opName)` of
`ml/utils.h`, which is missing from the sources; the first half of the shape
check "input must be an N×N square matrix": the number of rows is the
expected one. -/
def matchDimensions (expected actual : Nat) : Bool :=
  expected == actual

/-- Modelled from the spec: `isMatrixSquare(matrix, opName)` of `ml/utils.h`,
which is missing from the sources; the second half of the shape check: every
row is as long as the matrix has rows. -/
def isMatrixSquare (m : Matrix2d) : Bool :=
  m.all (fun row => row.length == m.length)

/-- Modelled from the spec: `reluOutput(x)` of `ml/utils.h`, which is missing
from the sources; "the activation currently applied is a fixed rectifier:
activation(x) = max(0, x)". -/
def reluOutput (x : ℚ) : ℚ :=
  if x > 0 then x else 0

/-- A `double` argument as a caller may pass it: a finite value or one of
the non-finite IEEE values. -/
inductive Double where
  | finite (value : ℚ)
  | posInf
  | negInf
  | nan
  deriving DecidableEq, Repr

/-- The value of a finite `double`; `0` stands in for the others, which the
learning-rate check never lets through. -/
def Double.value : Double → ℚ
  | .finite q => q
  | _ => 0

/-- A `double` is finite (`std::isfinite`). -/
def Double.isFinite : Double → Bool
  | .finite _ => true
  | _ => false

/-- Modelled from the spec: `checkLearningRate(learningRate, opName)` of
`ml/utils.h`, which is missing from the sources; "learningRate must be a
finite, positive number; otherwise returns failure". -/
def checkLearningRate (learningRate : Double) : Bool :=
  learningRate.isFinite && decide (0 < learningRate.value)

/-! ## The layer -/

/-- Minimum valid kernel size. -/
def kMinKernelSize : Nat := 1

/-- Maximum valid kernel size. -/
def kMaxKernelSize : Nat := 11

/-- The data members of `Conv`. -/
structure Conv where
  myInputPadded : Matrix2d
  myInputGradientsPadded : Matrix2d
  myInputGradients : Matrix2d
  myKernel : Matrix2d
  myKernelGradients : Matrix2d
  myOutput : Matrix2d
  myBias : ℚ
  myBiasGradient : ℚ
  deriving DecidableEq

/-- The two `std::invalid_argument` exceptions of the constructor. -/
inductive ConstructionError where
  | invalidKernelSize (kernelSize : Nat)
  | kernelGreaterThanInput
  deriving DecidableEq, Repr

/-- The constructor `Conv::Conv(inputSize, kernelSize, actFunc)`. The
activation selector is ignored by the source and left out. The external
`randomStartVal()` is the parameter `randomStartVal`: its value at `n` is
what the `n`-th call returns (call `0` initialises the bias, the next
`kernelSize * kernelSize` calls fill the kernel row by row). -/
def Conv.construct (randomStartVal : Nat → ℚ) (inputSize kernelSize : Nat) :
    Except ConstructionError Conv :=
  if kMinKernelSize > kernelSize ∨ kMaxKernelSize < kernelSize then
    .error (.invalidKernelSize kernelSize)
  else if inputSize < kernelSize then
    .error .kernelGreaterThanInput
  else
    let padOffset := kernelSize / 2
    let paddedSize := inputSize + 2 * padOffset
    let kernel0 := initMatrixSize kernelSize
    let kernel :=
      forLoop kernel0.length (fun ki k =>
        forLoop kernel0.length (fun kj k =>
          k.put ki kj (randomStartVal (1 + ki * kernel0.length + kj))) k) kernel0
    .ok { myInputPadded := initMatrixSize paddedSize
          myInputGradientsPadded := initMatrixSize paddedSize
          myInputGradients := initMatrixSize inputSize
          myKernel := kernel
          myKernelGradients := initMatrixSize kernelSize
          myOutput := initMatrixSize inputSize
          myBias := randomStartVal 0
          myBiasGradient := 0 }

/-- The member `Conv::inputSize()`. -/
def Conv.inputSize (s : Conv) : Nat := s.myInputGradients.length

/-- The member `Conv::outputSize()`. -/
def Conv.outputSize (s : Conv) : Nat := s.myOutput.length

/-- The member `Conv::output()`. -/
def Conv.output (s : Conv) : Matrix2d := s.myOutput

/-- The member `Conv::inputGradients()`. -/
def Conv.inputGradients (s : Conv) : Matrix2d := s.myInputGradients

/-- The member `Conv::padInput(input)`. -/
def Conv.padInput (s : Conv) (input : Matrix2d) : Conv :=
  let padOffset := s.myKernel.length / 2
  let s := { s with myInputPadded := initMatrix s.myInputPadded }
  forLoop s.myOutput.length (fun i st =>
    forLoop s.myOutput.length (fun j st =>
      { st with
        myInputPadded :=
          st.myInputPadded.put (i + padOffset) (j + padOffset) (input.at i j) }) st) s

/-- The member `Conv::extractInputGradients()`. -/
def Conv.extractInputGradients (s : Conv) : Conv :=
  let padOffset := s.myKernel.length / 2
  forLoop s.myOutput.length (fun i st =>
    forLoop s.myOutput.length (fun j st =>
      let value := st.myInputGradientsPadded.at (i + padOffset) (j + padOffset)
      { st with myInputGradients := st.myInputGradients.put i j value }) st) s

/-- The member `Conv::feedforward(input)`: the returned flag and the state
after the call. -/
def Conv.feedforward (s : Conv) (input : Matrix2d) : Bool × Conv :=
  if !matchDimensions s.myOutput.length input.length || !isMatrixSquare input then
    (false, s)
  else
    let s := s.padInput input
    let s :=
      forLoop s.myOutput.length (fun i st =>
        forLoop s.myOutput.length (fun j st =>
          let sum :=
            forLoop s.myKernel.length (fun ki sum =>
              forLoop s.myKernel.length (fun kj sum =>
                sum + st.myInputPadded.at (i + ki) (j + kj) * st.myKernel.at ki kj) sum)
              st.myBias
          { st with myOutput := st.myOutput.put i j (reluOutput sum) }) st) s
    (true, s)

/-- The member `Conv::backpropagate(outputGradients)`: the returned flag and
the state after the call. -/
def Conv.backpropagate (s : Conv) (outputGradients : Matrix2d) : Bool × Conv :=
  if !matchDimensions s.myOutput.length outputGradients.length
      || !isMatrixSquare outputGradients then
    (false, s)
  else
    let s := { s with myInputGradientsPadded := initMatrix s.myInputGradientsPadded }
    let s := { s with myInputGradients := initMatrix s.myInputGradients }
    let s := { s with myKernelGradients := initMatrix s.myKernelGradients }
    let s := { s with myBiasGradient := 0 }
    let s :=
      forLoop s.myOutput.length (fun i st =>
        forLoop s.myOutput.length (fun j st =>
          let delta := outputGradients.at i j
          let st := { st with myBiasGradient := st.myBiasGradient + delta }
          forLoop s.myKernel.length (fun ki st =>
            forLoop s.myKernel.length (fun kj st =>
              let kernelGradient :=
                st.myKernelGradients.at ki kj + st.myInputPadded.at (i + ki) (j + kj) * delta
              let st := { st with
                myKernelGradients := st.myKernelGradients.put ki kj kernelGradient }
              let inputGradient :=
                st.myInputGradientsPadded.at (i + ki) (j + kj) + st.myKernel.at ki kj * delta
              { st with
                myInputGradientsPadded :=
                  st.myInputGradientsPadded.put (i + ki) (j + kj) inputGradient }) st) st) st) s
    (true, s.extractInputGradients)

/-- The member `Conv::optimize(learningRate)`: the returned flag and the
state after the call. -/
def Conv.optimize (s : Conv) (learningRate : Double) : Bool × Conv :=
  if !checkLearningRate learningRate then
    (false, s)
  else
    let s := { s with myBias := s.myBias - s.myBiasGradient * learningRate.value }
    let s :=
      forLoop s.myKernel.length (fun ki st =>
        forLoop s.myKernel.length (fun kj st =>
          let weight := st.myKernel.at ki kj - st.myKernelGradients.at ki kj * learningRate.value
          { st with myKernel := st.myKernel.put ki kj weight }) st) s
    (true, s)

/-- The shape a layer built with `(N, K)` has: the validated sizes and the
buffer sizes the constructor allocates. -/
def Conv.Valid (s : Conv) (N K : Nat) : Prop :=
  1 ≤ K ∧ K ≤ 11 ∧ K ≤ N ∧
  s.myInputPadded.IsSquareOf (N + 2 * (K / 2)) ∧
  s.myInputGradientsPadded.IsSquareOf (N + 2 * (K / 2)) ∧
  s.myInputGradients.IsSquareOf N ∧
  s.myKernel.IsSquareOf K ∧
  s.myKernelGradients.IsSquareOf K ∧
  s.myOutput.IsSquareOf N

instance (s : Conv) (N K : Nat) : Decidable (s.Valid N K) := by
  unfold Conv.Valid
  infer_instance

/-- A layer with `N = 3`, `K = 3`, the centre-only kernel and bias `0`. -/
def identityLayer : Conv :=
  { myInputPadded := initMatrixSize 5
    myInputGradientsPadded := initMatrixSize 5
    myInputGradients := initMatrixSize 3
    myKernel := [[0, 0, 0], [0, 1, 0], [0, 0, 0]]
    myKernelGradients := initMatrixSize 3
    myOutput := initMatrixSize 3
    myBias := 0
    myBiasGradient := 0 }

/-- The input of the identity test. -/
def identityInput : Matrix2d := [[1, 2, 3], [4, 5, 6], [7, 8, 9]]

/-- The input zero-padded by `p` on each side, as the specification words it:
the `N x N` input sits at offset `p` in both axes and every other cell is `0`. -/
def zeroPadded (input : Matrix2d) (N p : Nat) (r c : Nat) : ℚ :=
  if p ≤ r ∧ r < p + N ∧ p ≤ c ∧ c < p + N then input.at (r - p) (c - p) else 0

/-- The state with `myInputPadded` blanked: two states with the same image
agree on every other member. -/
def Conv.forgetInputPadded (s : Conv) : Conv :=
  { s with myInputPadded := [] }

/-- The state with `myOutput` blanked. -/
def Conv.forgetOutput (s : Conv) : Conv :=
  { s with myOutput := [] }

/-- The state with `myKernel` blanked. -/
def Conv.forgetKernel (s : Conv) : Conv :=
  { s with myKernel := [] }

/-- The state with `myInputGradients` blanked. -/
def Conv.forgetInputGradients (s : Conv) : Conv :=
  { s with myInputGradients := [] }

/-- The state with every gradient member blanked. -/
def Conv.forgetGradients (s : Conv) : Conv :=
  { s with myBiasGradient := 0, myKernelGradients := [], myInputGradientsPadded := [],
           myInputGradients := [] }

/-- The state with the three accumulators of the loops of `backpropagate`
blanked. -/
def Conv.forgetAccumulators (s : Conv) : Conv :=
  { s with myBiasGradient := 0, myKernelGradients := [], myInputGradientsPadded := [] }

/-- The cells the loops of `backpropagate` accumulate into: the bias
gradient, a cell of `myKernelGradients`, a cell of `myInputGradientsPadded`. -/
inductive Accumulator where
  | bias
  | kernel (ki kj : Nat)
  | inputPadded (r c : Nat)

/-- The current content of an accumulator cell. -/
def Conv.accumulated (s : Conv) : Accumulator → ℚ
  | .bias => s.myBiasGradient
  | .kernel ki kj => s.myKernelGradients.at ki kj
  | .inputPadded r c => s.myInputGradientsPadded.at r c

/-- What the innermost statement pair of `backpropagate` at `(i, j, ki, kj)`
adds to an accumulator cell, for the padded input `inputPadded`, the kernel
`kernel` and the gradients `outputGradients`. -/
def contribution (inputPadded kernel outputGradients : Matrix2d) (i j ki kj : Nat) :
    Accumulator → ℚ
  | .bias => 0
  | .kernel a b =>
    if a = ki ∧ b = kj then inputPadded.at (i + ki) (j + kj) * outputGradients.at i j else 0
  | .inputPadded r c =>
    if r = i + ki ∧ c = j + kj then kernel.at ki kj * outputGradients.at i j else 0

/-- What the statement `myBiasGradient += delta` at `(i, j)` adds to an
accumulator cell. -/
def biasContribution (outputGradients : Matrix2d) (i j : Nat) : Accumulator → ℚ
  | .bias => outputGradients.at i j
  | _ => 0

/-- The gather form of the input gradient at `(a, b)`, as the specification
words it: with `p = K / 2`, the sum over the `ki, kj < K` for which
`0 ≤ a + p - ki < N` and `0 ≤ b + p - kj < N` of
`kernel[ki][kj] * outputGradients[a + p - ki][b + p - kj]`. -/
def gatherGradient (kernel outputGradients : Matrix2d) (N K a b : Nat) : ℚ :=
  ∑ ki in Finset.range K, ∑ kj in Finset.range K,
    if ki ≤ a + K / 2 ∧ a + K / 2 - ki < N ∧ kj ≤ b + K / 2 ∧ b + K / 2 - kj < N then
      kernel.at ki kj * outputGradients.at (a + K / 2 - ki) (b + K / 2 - kj)
    else 0

/-- The scatter form of the padded input gradient at `(r, c)`: every
iteration `(i, j, ki, kj)` of the loops whose target cell `(i + ki, j + kj)`
is `(r, c)` adds `kernel[ki][kj] * outputGradients[i][j]`. -/
def scatterGradient (kernel outputGradients : Matrix2d) (N K r c : Nat) : ℚ :=
  ∑ i in Finset.range N, ∑ j in Finset.range N,
    ∑ ki in Finset.range K, ∑ kj in Finset.range K,
      if r = i + ki ∧ c = j + kj then kernel.at ki kj * outputGradients.at i j else 0

/-- A `3 x 3` matrix of ones. -/
def onesInput : Matrix2d := [[1, 1, 1], [1, 1, 1], [1, 1, 1]]

/-- The all-ones `n x n` matrix. -/
def onesMatrix (n : Nat) : Matrix2d :=
  List.replicate n (List.replicate n 1)

/-- The member `Conv::optimize(learningRate)` with the helper
`checkLearningRate` of `ml/utils.h` as the parameter `check`. -/
def Conv.optimizeWith (check : Double → Bool) (s : Conv) (learningRate : Double) :
    Bool × Conv :=
  if !check learningRate then
    (false, s)
  else
    let s := { s with myBias := s.myBias - s.myBiasGradient * learningRate.value }
    let s :=
      forLoop s.myKernel.length (fun ki st =>
        forLoop s.myKernel.length (fun kj st =>
          let weight := st.myKernel.at ki kj - st.myKernelGradients.at ki kj * learningRate.value
          { st with myKernel := st.myKernel.put ki kj weight }) st) s
    (true, s)

/-- The state with the two buffers written by `feedforward` blanked. -/
def Conv.forgetForward (s : Conv) : Conv :=
  { s with myInputPadded := [], myOutput := [] }

/-- One call of a mutating member, with its argument. -/
inductive Call where
  | feedforward (input : Matrix2d)
  | backpropagate (outputGradients : Matrix2d)
  | optimize (learningRate : Double)

/-- The state after one call, the returned flag dropped. -/
def Conv.call (s : Conv) : Call → Conv
  | .feedforward input => (s.feedforward input).2
  | .backpropagate outputGradients => (s.backpropagate outputGradients).2
  | .optimize learningRate => (s.optimize learningRate).2

/-- The state after a sequence of calls, made in order. -/
def Conv.run (s : Conv) (calls : List Call) : Conv :=
  calls.foldl Conv.call s

/-- A `3 x 3` input with negative entries only. -/
def negativeInput : Matrix2d := [[-1, -2, -3], [-4, -5, -6], [-7, -8, -9]]

/-! ## The members with every matrix access bounds-checked -/

/-- Read `m[i][j]` with the bounds checked: `none` outside the buffer. -/
def Matrix2d.at? (m : Matrix2d) (i j : Nat) : Option ℚ :=
  match m[i]? with
  | none => none
  | some row => row[j]?

/-- Assign `m[i][j] = v` with the bounds checked: `none` outside the buffer. -/
def Matrix2d.put? (m : Matrix2d) (i j : Nat) (v : ℚ) : Option Matrix2d :=
  match m[i]? with
  | none => none
  | some row => if j < row.length then some (m.set i (row.set j v)) else none

/-- The loop `for (std::size_t i{}; i < n; ++i)` over a body that may fail. -/
def forLoopM {σ : Type} (n : Nat) (body : Nat → σ → Option σ) (init : σ) : Option σ :=
  (List.range n).foldlM (fun st i => body i st) init

/-- The member `Conv::padInput(input)`, every `operator[]` bounds-checked:
`none` as soon as one access is out of bounds. -/
def Conv.padInputChecked (s : Conv) (input : Matrix2d) : Option Conv :=
  let padOffset := s.myKernel.length / 2
  let s := { s with myInputPadded := initMatrix s.myInputPadded }
  forLoopM s.myOutput.length (fun i st =>
    forLoopM s.myOutput.length (fun j st => do
      let value ← input.at? i j
      let padded ← st.myInputPadded.put? (i + padOffset) (j + padOffset) value
      pure { st with myInputPadded := padded }) st) s

/-- The member `Conv::extractInputGradients()`, every `operator[]`
bounds-checked. -/
def Conv.extractInputGradientsChecked (s : Conv) : Option Conv :=
  let padOffset := s.myKernel.length / 2
  forLoopM s.myOutput.length (fun i st =>
    forLoopM s.myOutput.length (fun j st => do
      let value ← st.myInputGradientsPadded.at? (i + padOffset) (j + padOffset)
      let gradients ← st.myInputGradients.put? i j value
      pure { st with myInputGradients := gradients }) st) s

/-- The member `Conv::feedforward(input)`, every `operator[]` bounds-checked. -/
def Conv.feedforwardChecked (s : Conv) (input : Matrix2d) : Option (Bool × Conv) :=
  if !matchDimensions s.myOutput.length input.length || !isMatrixSquare input then
    some (false, s)
  else do
    let s ← s.padInputChecked input
    let s ←
      forLoopM s.myOutput.length (fun i st =>
        forLoopM s.myOutput.length (fun j st => do
          let sum ←
            forLoopM s.myKernel.length (fun ki sum =>
              forLoopM s.myKernel.length (fun kj sum => do
                let x ← st.myInputPadded.at? (i + ki) (j + kj)
                let w ← st.myKernel.at? ki kj
                pure (sum + x * w)) sum)
              st.myBias
          let out ← st.myOutput.put? i j (reluOutput sum)
          pure { st with myOutput := out }) st) s
    pure (true, s)

/-- The member `Conv::backpropagate(outputGradients)`, every `operator[]`
bounds-checked; `a[i][j] += x` reads the cell and writes it. -/
def Conv.backpropagateChecked (s : Conv) (outputGradients : Matrix2d) :
    Option (Bool × Conv) :=
  if !matchDimensions s.myOutput.length outputGradients.length
      || !isMatrixSquare outputGradients then
    some (false, s)
  else do
    let s := { s with myInputGradientsPadded := initMatrix s.myInputGradientsPadded }
    let s := { s with myInputGradients := initMatrix s.myInputGradients }
    let s := { s with myKernelGradients := initMatrix s.myKernelGradients }
    let s := { s with myBiasGradient := 0 }
    let s ←
      forLoopM s.myOutput.length (fun i st =>
        forLoopM s.myOutput.length (fun j st => do
          let delta ← outputGradients.at? i j
          let st := { st with myBiasGradient := st.myBiasGradient + delta }
          forLoopM s.myKernel.length (fun ki st =>
            forLoopM s.myKernel.length (fun kj st => do
              let oldKernelGradient ← st.myKernelGradients.at? ki kj
              let x ← st.myInputPadded.at? (i + ki) (j + kj)
              let kernelGradients ← st.myKernelGradients.put? ki kj (oldKernelGradient + x * delta)
              let st := { st with myKernelGradients := kernelGradients }
              let oldInputGradient ← st.myInputGradientsPadded.at? (i + ki) (j + kj)
              let w ← st.myKernel.at? ki kj
              let inputGradients ←
                st.myInputGradientsPadded.put? (i + ki) (j + kj) (oldInputGradient + w * delta)
              pure { st with myInputGradientsPadded := inputGradients }) st) st) st) s
    let s ← s.extractInputGradientsChecked
    pure (true, s)

/-! ## The layer over an arbitrary scalar arithmetic

The members above compute in exact rationals. `double` rounds, so the values
they compute are the values of the program only where no operation rounds.
The members are therefore embedded a second time over an arbitrary scalar
type `α` with arbitrary operations `Arith α`: what is proved of them for
every `Arith` holds of the program whatever `double` arithmetic does.
`binary64` is the arithmetic of IEEE 754 `double` itself (round to nearest,
ties to even, gradual underflow, overflow to infinity, NaN), the two zeros
identified since the layer never divides, and NaN a single value. Every
`x += a * b` and `x -= a * b` of the source is a product followed by a sum
or a difference, each rounded. -/

/-- The scalar arithmetic the layer computes in: the constant `0.0`, the
operations `+`, `-`, `*` and the test `x > 0`, as the source uses them on
`double`. Nothing is assumed of them. -/
structure Arith (α : Type) where
  zero : α
  add : α → α → α
  sub : α → α → α
  mul : α → α → α
  isPositive : α → Bool

/-- A matrix of scalars of type `α` (`std::vector<std::vector<double>>`). -/
abbrev MatrixOf (α : Type) := List (List α)

/-- Read `m[i][j]`; a read outside the buffer yields `0.0`. -/
def MatrixOf.at {α : Type} (m : MatrixOf α) (A : Arith α) (i j : Nat) : α :=
  (m.getD i []).getD j A.zero

/-- Assign `m[i][j] = v`; a write outside the buffer changes nothing. -/
def MatrixOf.put {α : Type} (m : MatrixOf α) (i j : Nat) (v : α) : MatrixOf α :=
  m.set i ((m.getD i []).set j v)

/-- The matrix `m` has exactly `n` rows, each of length `n`. -/
def MatrixOf.IsSquareOf {α : Type} (m : MatrixOf α) (n : Nat) : Prop :=
  m.length = n ∧ ∀ row ∈ m, row.length = n

instance {α : Type} (m : MatrixOf α) (n : Nat) : Decidable (m.IsSquareOf n) := by
  unfold MatrixOf.IsSquareOf
  infer_instance

/-- Modelled from the spec: `initMatrix(matrix)` of `ml/utils.h`, which is
missing from the sources; it zero-fills a buffer in place. -/
def initMatrixOf {α : Type} (A : Arith α) (m : MatrixOf α) : MatrixOf α :=
  m.map (fun row => row.map (fun _ => A.zero))

/-- Modelled from the spec: `isMatrixSquare(matrix, opName)` of `ml/utils.h`,
which is missing from the sources; every row is as long as the matrix has
rows. -/
def isMatrixSquareOf {α : Type} (m : MatrixOf α) : Bool :=
  m.all (fun row => row.length == m.length)

/-- Modelled from the spec: `reluOutput(x)` of `ml/utils.h`, which is missing
from the sources; the rectifier `max(0, x)`, that is `x > 0 ? x : 0`. -/
def reluOutputOf {α : Type} (A : Arith α) (x : α) : α :=
  if A.isPositive x then x else A.zero

/-- The data members of `Conv`, scalars of type `α`. -/
structure ConvOf (α : Type) where
  myInputPadded : MatrixOf α
  myInputGradientsPadded : MatrixOf α
  myInputGradients : MatrixOf α
  myKernel : MatrixOf α
  myKernelGradients : MatrixOf α
  myOutput : MatrixOf α
  myBias : α
  myBiasGradient : α
  deriving DecidableEq

/-- The member `Conv::padInput(input)`. -/
def ConvOf.padInput {α : Type} (A : Arith α) (s : ConvOf α) (input : MatrixOf α) : ConvOf α :=
  let padOffset := s.myKernel.length / 2
  let s := { s with myInputPadded := initMatrixOf A s.myInputPadded }
  forLoop s.myOutput.length (fun i st =>
    forLoop s.myOutput.length (fun j st =>
      { st with
        myInputPadded :=
          st.myInputPadded.put (i + padOffset) (j + padOffset) (input.at A i j) }) st) s

/-- The member `Conv::extractInputGradients()`. -/
def ConvOf.extractInputGradients {α : Type} (A : Arith α) (s : ConvOf α) : ConvOf α :=
  let padOffset := s.myKernel.length / 2
  forLoop s.myOutput.length (fun i st =>
    forLoop s.myOutput.length (fun j st =>
      let value := st.myInputGradientsPadded.at A (i + padOffset) (j + padOffset)
      { st with myInputGradients := st.myInputGradients.put i j value }) st) s

/-- The member `Conv::feedforward(input)`: the returned flag and the state
after the call; `sum += a * b` is `A.add sum (A.mul a b)`. -/
def ConvOf.feedforward {α : Type} (A : Arith α) (s : ConvOf α) (input : MatrixOf α) :
    Bool × ConvOf α :=
  if !matchDimensions s.myOutput.length input.length || !isMatrixSquareOf input then
    (false, s)
  else
    let s := s.padInput A input
    let s :=
      forLoop s.myOutput.length (fun i st =>
        forLoop s.myOutput.length (fun j st =>
          let sum :=
            forLoop s.myKernel.length (fun ki sum =>
              forLoop s.myKernel.length (fun kj sum =>
                A.add sum
                  (A.mul (st.myInputPadded.at A (i + ki) (j + kj)) (st.myKernel.at A ki kj)))
                sum)
              st.myBias
          { st with myOutput := st.myOutput.put i j (reluOutputOf A sum) }) st) s
    (true, s)

/-- The member `Conv::backpropagate(outputGradients)`: the returned flag and
the state after the call; `x += a * b` is `A.add x (A.mul a b)`. -/
def ConvOf.backpropagate {α : Type} (A : Arith α) (s : ConvOf α)
    (outputGradients : MatrixOf α) : Bool × ConvOf α :=
  if !matchDimensions s.myOutput.length outputGradients.length
      || !isMatrixSquareOf outputGradients then
    (false, s)
  else
    let s := { s with myInputGradientsPadded := initMatrixOf A s.myInputGradientsPadded }
    let s := { s with myInputGradients := initMatrixOf A s.myInputGradients }
    let s := { s with myKernelGradients := initMatrixOf A s.myKernelGradients }
    let s := { s with myBiasGradient := A.zero }
    let s :=
      forLoop s.myOutput.length (fun i st =>
        forLoop s.myOutput.length (fun j st =>
          let delta := outputGradients.at A i j
          let st := { st with myBiasGradient := A.add st.myBiasGradient delta }
          forLoop s.myKernel.length (fun ki st =>
            forLoop s.myKernel.length (fun kj st =>
              let kernelGradient :=
                A.add (st.myKernelGradients.at A ki kj)
                  (A.mul (st.myInputPadded.at A (i + ki) (j + kj)) delta)
              let st := { st with
                myKernelGradients := st.myKernelGradients.put ki kj kernelGradient }
              let inputGradient :=
                A.add (st.myInputGradientsPadded.at A (i + ki) (j + kj))
                  (A.mul (st.myKernel.at A ki kj) delta)
              { st with
                myInputGradientsPadded :=
                  st.myInputGradientsPadded.put (i + ki) (j + kj) inputGradient }) st) st) st) s
    (true, s.extractInputGradients A)

/-- The member `Conv::optimize(learningRate)`: the returned flag and the
state after the call; `x -= g * rate` is `A.sub x (A.mul g rate)`, and the
helper `checkLearningRate` of `ml/utils.h` is the parameter `check`. -/
def ConvOf.optimize {α : Type} (A : Arith α) (check : α → Bool) (s : ConvOf α)
    (learningRate : α) : Bool × ConvOf α :=
  if !check learningRate then
    (false, s)
  else
    let s := { s with myBias := A.sub s.myBias (A.mul s.myBiasGradient learningRate) }
    let s :=
      forLoop s.myKernel.length (fun ki st =>
        forLoop s.myKernel.length (fun kj st =>
          let weight :=
            A.sub (st.myKernel.at A ki kj) (A.mul (st.myKernelGradients.at A ki kj) learningRate)
          { st with myKernel := st.myKernel.put ki kj weight }) st) s
    (true, s)

/-- The shape a layer built with `(N, K)` has. -/
def ConvOf.Valid {α : Type} (s : ConvOf α) (N K : Nat) : Prop :=
  1 ≤ K ∧ K ≤ 11 ∧ K ≤ N ∧
  s.myInputPadded.IsSquareOf (N + 2 * (K / 2)) ∧
  s.myInputGradientsPadded.IsSquareOf (N + 2 * (K / 2)) ∧
  s.myInputGradients.IsSquareOf N ∧
  s.myKernel.IsSquareOf K ∧
  s.myKernelGradients.IsSquareOf K ∧
  s.myOutput.IsSquareOf N

instance {α : Type} (s : ConvOf α) (N K : Nat) : Decidable (s.Valid N K) := by
  unfold ConvOf.Valid
  infer_instance

/-- The input zero-padded by `p` on each side. -/
def zeroPaddedOf {α : Type} (A : Arith α) (input : MatrixOf α) (N p : Nat) (r c : Nat) : α :=
  if p ≤ r ∧ r < p + N ∧ p ≤ c ∧ c < p + N then input.at A (r - p) (c - p) else A.zero

/-- The state with `myInputPadded` blanked. -/
def ConvOf.forgetInputPadded {α : Type} (s : ConvOf α) : ConvOf α :=
  { s with myInputPadded := [] }

/-- The state with `myOutput` blanked. -/
def ConvOf.forgetOutput {α : Type} (s : ConvOf α) : ConvOf α :=
  { s with myOutput := [] }

/-- The state with `myKernel` blanked. -/
def ConvOf.forgetKernel {α : Type} (s : ConvOf α) : ConvOf α :=
  { s with myKernel := [] }

/-- The state with `myInputGradients` blanked. -/
def ConvOf.forgetInputGradients {α : Type} (s : ConvOf α) : ConvOf α :=
  { s with myInputGradients := [] }

/-- The state with every gradient member blanked. -/
def ConvOf.forgetGradients {α : Type} (z : α) (s : ConvOf α) : ConvOf α :=
  { s with myBiasGradient := z, myKernelGradients := [], myInputGradientsPadded := [],
           myInputGradients := [] }

/-- The state with the three accumulators of the loops of `backpropagate`
blanked. -/
def ConvOf.forgetAccumulators {α : Type} (z : α) (s : ConvOf α) : ConvOf α :=
  { s with myBiasGradient := z, myKernelGradients := [], myInputGradientsPadded := [] }

/-- The current content of an accumulator cell. -/
def ConvOf.accumulated {α : Type} (A : Arith α) (s : ConvOf α) : Accumulator → α
  | .bias => s.myBiasGradient
  | .kernel ki kj => s.myKernelGradients.at A ki kj
  | .inputPadded r c => s.myInputGradientsPadded.at A r c

/-- The power `2 ^ e` for an integer exponent. -/
def pow2 (e : Int) : ℚ :=
  if 0 ≤ e then ((2 ^ e.toNat : Nat) : ℚ) else 1 / ((2 ^ (-e).toNat : Nat) : ℚ)

/-- Round to the nearest integer, ties to the even one. -/
def roundHalfEven (q : ℚ) : Int :=
  let f := Rat.floor q
  let r := q - (f : ℚ)
  if r < 1 / 2 then f else if 1 / 2 < r then f + 1 else if f % 2 = 0 then f else f + 1

/-- The binary logarithm of `n`, rounded down, by at most `fuel` halvings. -/
def log2Aux : Nat → Nat → Nat
  | 0, _ => 0
  | fuel + 1, n => if 2 ≤ n then log2Aux fuel (n / 2) + 1 else 0

/-- The binary logarithm of `n`, rounded down (`0` for `n = 0`). -/
def log2Floor (n : Nat) : Nat := log2Aux n n

/-- For `a > 0` the exponent `e` with `2 ^ e ≤ a < 2 ^ (e + 1)`. -/
def exponentOf (a : ℚ) : Int :=
  let e0 : Int := (log2Floor a.num.natAbs : Int) - (log2Floor a.den : Int)
  if pow2 e0 ≤ a then e0 else e0 - 1

/-- The `double` nearest to the real number `q`: 53 significant bits, ties
to even, the spacing `2 ^ -1074` below `2 ^ -1022`, and infinity once the
rounded magnitude reaches `2 ^ 1024`. -/
def roundDouble (q : ℚ) : Double :=
  if q = 0 then .finite 0
  else
    let a := |q|
    let t := max (exponentOf a - 52) (-1074)
    let r := (roundHalfEven (a / pow2 t) : ℚ) * pow2 t
    if pow2 1024 ≤ r then (if 0 < q then .posInf else .negInf)
    else .finite (if 0 < q then r else -r)

/-- The negation of a `double`. -/
def Double.neg : Double → Double
  | .finite q => .finite (-q)
  | .posInf => .negInf
  | .negInf => .posInf
  | .nan => .nan

/-- The sum of two `double`s, rounded. -/
def Double.add : Double → Double → Double
  | .finite a, .finite b => roundDouble (a + b)
  | .nan, _ => .nan
  | _, .nan => .nan
  | .posInf, .negInf => .nan
  | .negInf, .posInf => .nan
  | .posInf, _ => .posInf
  | _, .posInf => .posInf
  | .negInf, _ => .negInf
  | _, .negInf => .negInf

/-- The difference of two `double`s, rounded. -/
def Double.sub (a b : Double) : Double := a.add b.neg

/-- The sign of a `double`: `1`, `-1`, or `0` for zero and NaN. -/
def Double.sign : Double → Int
  | .finite q => if 0 < q then 1 else if q < 0 then -1 else 0
  | .posInf => 1
  | .negInf => -1
  | .nan => 0

/-- The product of two `double`s, rounded. -/
def Double.mul : Double → Double → Double
  | .finite a, .finite b => roundDouble (a * b)
  | .nan, _ => .nan
  | _, .nan => .nan
  | a, b =>
    if a.sign * b.sign = 0 then .nan
    else if 0 < a.sign * b.sign then .posInf else .negInf

/-- The test `x > 0` on a `double`. -/
def Double.isPositive : Double → Bool
  | .finite q => decide (0 < q)
  | .posInf => true
  | _ => false

/-- The arithmetic of IEEE 754 `double`. -/
def binary64 : Arith Double :=
  { zero := .finite 0, add := Double.add, sub := Double.sub, mul := Double.mul,
    isPositive := Double.isPositive }

/-- A `1 x 1` layer with kernel `1` and bias `10^16`, bias gradient `1`. -/
def largeBiasLayer : ConvOf Double :=
  { myInputPadded := [[.finite 0]]
    myInputGradientsPadded := [[.finite 0]]
    myInputGradients := [[.finite 0]]
    myKernel := [[.finite 1]]
    myKernelGradients := [[.finite 0]]
    myOutput := [[.finite 0]]
    myBias := .finite 10000000000000000
    myBiasGradient := .finite 1 }

/-- A layer with `N = 2`, `K = 2`, the all-ones kernel and bias `10^16`. -/
def largeBiasOnesLayer : ConvOf Double :=
  { myInputPadded := List.replicate 4 (List.replicate 4 (.finite 0))
    myInputGradientsPadded := List.replicate 4 (List.replicate 4 (.finite 0))
    myInputGradients := [[.finite 0, .finite 0], [.finite 0, .finite 0]]
    myKernel := [[.finite 1, .finite 1], [.finite 1, .finite 1]]
    myKernelGradients := [[.finite 0, .finite 0], [.finite 0, .finite 0]]
    myOutput := [[.finite 0, .finite 0], [.finite 0, .finite 0]]
    myBias := .finite 10000000000000000
    myBiasGradient := .finite 0 }

/-- A `1 x 1` layer with kernel `1`, bias `9` and bias gradient `9`. -/
def nineLayer : ConvOf Double :=
  { myInputPadded := [[.finite 0]]
    myInputGradientsPadded := [[.finite 0]]
    myInputGradients := [[.finite 0]]
    myKernel := [[.finite 1]]
    myKernelGradients := [[.finite 0]]
    myOutput := [[.finite 0]]
    myBias := .finite 9
    myBiasGradient := .finite 9 }

/-- The `double` just below `1`: `1 - 2^-53`. -/
def belowOne : Double := .finite (9007199254740991 / 9007199254740992)

/-- The all-ones `2 x 2` matrix of `double`s. -/
def onesOf2 : MatrixOf Double := [[.finite 1, .finite 1], [.finite 1, .finite 1]]

theorem Matrix2d.at_put (m : Matrix2d) (i j : Nat) (v : ℚ) (a b : Nat) :
    (m.put i j v).at a b =
      if a = i ∧ b = j ∧ i < m.length ∧ j < (m.getD i []).length then v else m.at a b := by
  unfold Matrix2d.put Matrix2d.at
  simp only [List.getD_eq_getElem?_getD, List.getElem?_set]
  by_cases hia : i = a
  · subst hia
    by_cases hi : i < m.length
    · simp only [hi, if_true, Option.getD_some, List.getElem?_set, true_and, and_true]
      by_cases hjb : j = b
      · subst hjb
        by_cases hj : j < (m[i]?.getD []).length
        · simp [hj]
        · simp [hj, List.getElem?_eq_none (Nat.le_of_not_lt hj)]
      · have hbj : ¬ b = j := fun h => hjb h.symm
        simp [hjb, hbj]
    · simp [hi, List.getElem?_eq_none (Nat.le_of_not_lt hi)]
  · have hai : ¬ a = i := fun h => hia h.symm
    simp [hia, hai]

theorem Matrix2d.put_length (m : Matrix2d) (i j : Nat) (v : ℚ) :
    (m.put i j v).length = m.length := by
  simp [Matrix2d.put]

theorem Matrix2d.IsSquareOf.row {m : Matrix2d} {n : Nat} (h : m.IsSquareOf n) {i : Nat}
    (hi : i < n) : (m.getD i []).length = n := by
  obtain ⟨hl, hr⟩ := h
  have hi2 : i < m.length := by omega
  rw [List.getD_eq_getElem m [] hi2]
  exact hr _ (List.getElem_mem hi2)

theorem Matrix2d.put_isSquareOf {m : Matrix2d} {n : Nat} (h : m.IsSquareOf n) (i j : Nat)
    (v : ℚ) : (m.put i j v).IsSquareOf n := by
  obtain ⟨hl, hr⟩ := h
  refine ⟨by simp [Matrix2d.put, hl], ?_⟩
  intro row hrow
  unfold Matrix2d.put at hrow
  by_cases hi : i < m.length
  · rcases List.mem_or_eq_of_mem_set hrow with h1 | h1
    · exact hr row h1
    · subst h1
      rw [List.length_set, List.getD_eq_getElem m [] hi]
      exact hr _ (List.getElem_mem hi)
  · rw [List.set_eq_of_length_le (Nat.le_of_not_lt hi)] at hrow
    exact hr row hrow

/-- Inside a square matrix a write at a cell followed by a read. -/
theorem Matrix2d.at_put_of_isSquareOf {m : Matrix2d} {n : Nat} (h : m.IsSquareOf n)
    (i j : Nat) (v : ℚ) (a b : Nat) (ha : a < n) (hb : b < n) :
    (m.put i j v).at a b = if a = i ∧ b = j then v else m.at a b := by
  rw [Matrix2d.at_put]
  by_cases hab : a = i ∧ b = j
  · obtain ⟨rfl, rfl⟩ := hab
    have h1 : a < m.length := by rw [h.1]; exact ha
    have h2 : b < (m.getD a []).length := by rw [h.row ha]; exact hb
    rw [if_pos ⟨rfl, rfl, h1, h2⟩, if_pos ⟨rfl, rfl⟩]
  · have : ¬ (a = i ∧ b = j ∧ i < m.length ∧ j < (m.getD i []).length) :=
      fun hh => hab ⟨hh.1, hh.2.1⟩
    rw [if_neg this, if_neg hab]

theorem Matrix2d.at_of_le_rows (m : Matrix2d) (a b : Nat) (h : m.length ≤ a) :
    m.at a b = 0 := by
  unfold Matrix2d.at
  rw [List.getD_eq_default m [] h]
  rfl

theorem Matrix2d.at_of_le_cols {m : Matrix2d} {n : Nat} (hm : m.IsSquareOf n) (a b : Nat)
    (h : n ≤ b) : m.at a b = 0 := by
  by_cases ha : a < n
  · unfold Matrix2d.at
    rw [List.getD_eq_default _ 0 (by rw [hm.row ha]; exact h)]
  · exact m.at_of_le_rows a b (by rw [hm.1]; omega)

theorem initMatrixSize_isSquareOf (n : Nat) : (initMatrixSize n).IsSquareOf n := by
  refine ⟨by simp [initMatrixSize], ?_⟩
  intro row hrow
  rw [initMatrixSize, List.mem_replicate] at hrow
  rw [hrow.2]
  simp

theorem at_initMatrixSize (n a b : Nat) : (initMatrixSize n).at a b = 0 := by
  unfold Matrix2d.at initMatrixSize
  simp only [List.getD_eq_getElem?_getD, List.getElem?_replicate]
  by_cases ha : a < n
  · simp only [ha, if_true, Option.getD_some, List.getElem?_replicate]
    by_cases hb : b < n <;> simp [hb]
  · simp [ha]

theorem initMatrix_isSquareOf {m : Matrix2d} {n : Nat} (h : m.IsSquareOf n) :
    (initMatrix m).IsSquareOf n := by
  refine ⟨by simp [initMatrix, h.1], ?_⟩
  intro row hrow
  simp only [initMatrix, List.mem_map] at hrow
  obtain ⟨r, hr, rfl⟩ := hrow
  simp [h.2 r hr]

theorem at_initMatrix (m : Matrix2d) (a b : Nat) : (initMatrix m).at a b = 0 := by
  unfold Matrix2d.at initMatrix
  simp only [List.getD_eq_getElem?_getD, List.getElem?_map]
  cases h1 : m[a]? with
  | none => simp
  | some row =>
    simp only [Option.map_some', Option.getD_some, List.getElem?_map]
    cases h2 : row[b]? <;> simp

/-- Two square matrices of the same size with the same entries are equal. -/
theorem Matrix2d.ext_of_isSquareOf {m1 m2 : Matrix2d} {n : Nat} (h1 : m1.IsSquareOf n)
    (h2 : m2.IsSquareOf n) (h : ∀ a b, a < n → b < n → m1.at a b = m2.at a b) : m1 = m2 := by
  apply List.ext_getElem (by rw [h1.1, h2.1])
  intro a ha1 ha2
  have han : a < n := by rw [← h1.1]; exact ha1
  have hr1 : (m1[a]).length = n := h1.2 _ (List.getElem_mem ha1)
  have hr2 : (m2[a]).length = n := h2.2 _ (List.getElem_mem ha2)
  apply List.ext_getElem (by rw [hr1, hr2])
  intro b hb1 hb2
  have hbn : b < n := by rw [← hr1]; exact hb1
  have := h a b han hbn
  unfold Matrix2d.at at this
  rw [List.getD_eq_getElem m1 [] ha1, List.getD_eq_getElem m2 [] ha2,
    List.getD_eq_getElem _ 0 hb1, List.getD_eq_getElem _ 0 hb2] at this
  exact this

/-! ## Loop rules -/

theorem forLoop_zero {σ : Type} (body : Nat → σ → σ) (init : σ) :
    forLoop 0 body init = init := by
  simp [forLoop]

theorem forLoop_succ {σ : Type} (n : Nat) (body : Nat → σ → σ) (init : σ) :
    forLoop (n + 1) body init = body n (forLoop n body init) := by
  simp [forLoop, List.range_succ, List.foldl_append]

/-- An invariant of the body of a loop holds after the loop. -/
theorem forLoop_inv {σ : Type} (I : σ → Prop) (n : Nat) (body : Nat → σ → σ) (init : σ)
    (step : ∀ i st, i < n → I st → I (body i st)) (h0 : I init) :
    I (forLoop n body init) := by
  induction n with
  | zero => rw [forLoop_zero]; exact h0
  | succ k ih =>
    rw [forLoop_succ]
    exact step k _ (Nat.lt_succ_self k)
      (ih (fun i st hi hI => step i st (Nat.lt_succ_of_lt hi) hI))

/-- A loop whose body adds `c i` to the observed quantity `φ` adds the sum of
the `c i`. -/
theorem forLoop_sum {σ : Type} (I : σ → Prop) (φ : σ → ℚ) (c : Nat → ℚ) (n : Nat)
    (body : Nat → σ → σ) (init : σ)
    (step : ∀ i st, i < n → I st → I (body i st) ∧ φ (body i st) = φ st + c i)
    (h0 : I init) :
    I (forLoop n body init) ∧
      φ (forLoop n body init) = φ init + ∑ i in Finset.range n, c i := by
  induction n with
  | zero => rw [forLoop_zero]; simp [h0]
  | succ k ih =>
    rw [forLoop_succ]
    obtain ⟨hI, hφ⟩ := ih (fun i st hi hI => step i st (Nat.lt_succ_of_lt hi) hI)
    obtain ⟨hI2, hφ2⟩ := step k _ (Nat.lt_succ_self k) hI
    refine ⟨hI2, ?_⟩
    rw [hφ2, hφ, Finset.sum_range_succ]
    ring

/-- A loop whose `i`-th iteration overwrites the cells `W i` of the observed
table `V` with the values `val`, and leaves the others, overwrites the cells
of all iterations. -/
theorem forLoop_fill {σ κ : Type} (I : σ → Prop) (V : σ → κ → ℚ) (W : Nat → κ → Prop)
    (val : κ → ℚ) (n : Nat) (body : Nat → σ → σ) (init : σ)
    (step : ∀ i st, i < n → I st → I (body i st) ∧
      (∀ x, W i x → V (body i st) x = val x) ∧ (∀ x, ¬ W i x → V (body i st) x = V st x))
    (h0 : I init) :
    I (forLoop n body init) ∧
      (∀ x, (∃ i, i < n ∧ W i x) → V (forLoop n body init) x = val x) ∧
      (∀ x, (¬ ∃ i, i < n ∧ W i x) → V (forLoop n body init) x = V init x) := by
  induction n with
  | zero =>
    rw [forLoop_zero]
    refine ⟨h0, ?_, fun _ _ => rfl⟩
    rintro x ⟨i, hi, _⟩
    omega
  | succ k ih =>
    rw [forLoop_succ]
    obtain ⟨hI, hw, hn⟩ := ih (fun i st hi hI => step i st (Nat.lt_succ_of_lt hi) hI)
    obtain ⟨hI2, hw2, hn2⟩ := step k _ (Nat.lt_succ_self k) hI
    refine ⟨hI2, ?_, ?_⟩
    · rintro x ⟨i, hi, hx⟩
      by_cases hk : W k x
      · exact hw2 x hk
      · rw [hn2 x hk]
        have : i < k := by
          rcases Nat.lt_succ_iff_lt_or_eq.mp hi with h | h
          · exact h
          · subst h; exact absurd hx hk
        exact hw x ⟨i, this, hx⟩
    · intro x hx
      have hk : ¬ W k x := fun h => hx ⟨k, Nat.lt_succ_self k, h⟩
      rw [hn2 x hk]
      exact hn x (fun ⟨i, hi, h⟩ => hx ⟨i, Nat.lt_succ_of_lt hi, h⟩)

/-! ## Construction -/

theorem construct_eq_ok (randomStartVal : Nat → ℚ) (N K : Nat) (h1 : 1 ≤ K) (h2 : K ≤ 11)
    (h3 : K ≤ N) : ∃ s, Conv.construct randomStartVal N K = .ok s := by
  unfold Conv.construct
  rw [if_neg (by simp only [kMinKernelSize, kMaxKernelSize]; omega), if_neg (by omega)]
  exact ⟨_, rfl⟩

theorem construct_sizes (randomStartVal : Nat → ℚ) (N K : Nat) (s : Conv)
    (h : Conv.construct randomStartVal N K = .ok s) :
    (1 ≤ K ∧ K ≤ 11 ∧ K ≤ N) ∧ s.myInputGradients = initMatrixSize N ∧
      s.myOutput = initMatrixSize N := by
  unfold Conv.construct at h
  by_cases hr : kMinKernelSize > K ∨ kMaxKernelSize < K
  · rw [if_pos hr] at h
    cases h
  · rw [if_neg hr] at h
    by_cases hn : N < K
    · rw [if_pos hn] at h
      cases h
    · rw [if_neg hn] at h
      simp only [kMinKernelSize, kMaxKernelSize] at hr
      refine ⟨by omega, ?_, ?_⟩
      · cases h; rfl
      · cases h; rfl

/-- C1. Constructing `Conv(N, K)` succeeds exactly when `1 ≤ K ≤ 11` and
`K ≤ N`, it fails with a construction error in every other case, and on
success `inputSize()` and `outputSize()` are both `N`. -/
theorem construct_succeeds_iff (randomStartVal : Nat → ℚ) (N K : Nat) :
    ((∃ s, Conv.construct randomStartVal N K = .ok s) ↔ (1 ≤ K ∧ K ≤ 11 ∧ K ≤ N)) ∧
    ((∃ e, Conv.construct randomStartVal N K = .error e) ↔ ¬ (1 ≤ K ∧ K ≤ 11 ∧ K ≤ N)) ∧
    (∀ s, Conv.construct randomStartVal N K = .ok s → s.inputSize = N ∧ s.outputSize = N) := by
  refine ⟨⟨?_, ?_⟩, ⟨?_, ?_⟩, ?_⟩
  · rintro ⟨s, hs⟩
    exact (construct_sizes randomStartVal N K s hs).1
  · rintro ⟨h1, h2, h3⟩
    exact construct_eq_ok randomStartVal N K h1 h2 h3
  · rintro ⟨e, he⟩ ⟨h1, h2, h3⟩
    obtain ⟨s, hs⟩ := construct_eq_ok randomStartVal N K h1 h2 h3
    rw [hs] at he
    cases he
  · intro hn
    cases hc : Conv.construct randomStartVal N K with
    | error e => exact ⟨e, rfl⟩
    | ok s => exact absurd (construct_sizes randomStartVal N K s hc).1 hn
  · intro s hs
    obtain ⟨_, hg, ho⟩ := construct_sizes randomStartVal N K s hs
    unfold Conv.inputSize Conv.outputSize
    rw [hg, ho]
    exact ⟨(initMatrixSize_isSquareOf N).1, (initMatrixSize_isSquareOf N).1⟩

/-- C1 at `N = 5`, `K = 3`: the construction succeeds and both sizes are `5`. -/
theorem construct_succeeds_iff_witness :
    ∃ s, Conv.construct (fun n => n) 5 3 = .ok s ∧ s.inputSize = 5 ∧ s.outputSize = 5 := by
  obtain ⟨s, hs⟩ := (construct_succeeds_iff (fun n => n) 5 3).1.2 (by decide)
  exact ⟨s, hs, (construct_succeeds_iff (fun n => n) 5 3).2.2 s hs⟩

/-- A loop whose body adds `c x i` to each observed quantity `φ x` adds the
sums of the `c x i`. -/
theorem forLoop_sums {σ ι : Type} (I : σ → Prop) (φ : σ → ι → ℚ) (c : Nat → ι → ℚ) (n : Nat)
    (body : Nat → σ → σ) (init : σ)
    (step : ∀ i st, i < n → I st → I (body i st) ∧ ∀ x, φ (body i st) x = φ st x + c i x)
    (h0 : I init) :
    I (forLoop n body init) ∧
      ∀ x, φ (forLoop n body init) x = φ init x + ∑ i in Finset.range n, c i x := by
  induction n with
  | zero => rw [forLoop_zero]; simp [h0]
  | succ k ih =>
    rw [forLoop_succ]
    obtain ⟨hI, hφ⟩ := ih (fun i st hi hI => step i st (Nat.lt_succ_of_lt hi) hI)
    obtain ⟨hI2, hφ2⟩ := step k _ (Nat.lt_succ_self k) hI
    refine ⟨hI2, fun x => ?_⟩
    rw [hφ2, hφ, Finset.sum_range_succ]
    ring

/-- Inside a square matrix, adding `x` to the cell `(i, j)`. -/
theorem Matrix2d.at_put_add {m : Matrix2d} {n : Nat} (h : m.IsSquareOf n) (i j : Nat)
    (hi : i < n) (hj : j < n) (x : ℚ) (a b : Nat) :
    (m.put i j (m.at i j + x)).at a b = m.at a b + if a = i ∧ b = j then x else 0 := by
  rw [Matrix2d.at_put]
  by_cases hab : a = i ∧ b = j
  · obtain ⟨rfl, rfl⟩ := hab
    have h1 : a < m.length := by rw [h.1]; exact hi
    have h2 : b < (m.getD a []).length := by rw [h.row hi]; exact hj
    rw [if_pos ⟨rfl, rfl, h1, h2⟩, if_pos ⟨rfl, rfl⟩]
  · have : ¬ (a = i ∧ b = j ∧ i < m.length ∧ j < (m.getD i []).length) :=
      fun hh => hab ⟨hh.1, hh.2.1⟩
    rw [if_neg this, if_neg hab, add_zero]

/-! ## Frames -/

theorem Conv.of_forgetInputGradients {a b : Conv}
    (h : a.forgetInputGradients = b.forgetInputGradients) :
    a.myInputPadded = b.myInputPadded ∧
    a.myInputGradientsPadded = b.myInputGradientsPadded ∧ a.myKernel = b.myKernel ∧
    a.myKernelGradients = b.myKernelGradients ∧ a.myOutput = b.myOutput ∧
    a.myBias = b.myBias ∧ a.myBiasGradient = b.myBiasGradient := by
  simp only [Conv.forgetInputGradients, Conv.mk.injEq, true_and] at h
  exact h

theorem Conv.of_forgetAccumulators {a b : Conv}
    (h : a.forgetAccumulators = b.forgetAccumulators) :
    a.myInputPadded = b.myInputPadded ∧ a.myInputGradients = b.myInputGradients ∧
    a.myKernel = b.myKernel ∧ a.myOutput = b.myOutput ∧ a.myBias = b.myBias := by
  simp only [Conv.forgetAccumulators, Conv.mk.injEq, true_and, and_true] at h
  exact h


theorem Conv.of_forgetInputPadded {a b : Conv}
    (h : a.forgetInputPadded = b.forgetInputPadded) :
    a.myInputGradientsPadded = b.myInputGradientsPadded ∧
    a.myInputGradients = b.myInputGradients ∧ a.myKernel = b.myKernel ∧
    a.myKernelGradients = b.myKernelGradients ∧ a.myOutput = b.myOutput ∧
    a.myBias = b.myBias ∧ a.myBiasGradient = b.myBiasGradient := by
  simp only [Conv.forgetInputPadded, Conv.mk.injEq, true_and] at h
  exact h

theorem Conv.of_forgetOutput {a b : Conv} (h : a.forgetOutput = b.forgetOutput) :
    a.myInputPadded = b.myInputPadded ∧
    a.myInputGradientsPadded = b.myInputGradientsPadded ∧
    a.myInputGradients = b.myInputGradients ∧ a.myKernel = b.myKernel ∧
    a.myKernelGradients = b.myKernelGradients ∧
    a.myBias = b.myBias ∧ a.myBiasGradient = b.myBiasGradient := by
  simp only [Conv.forgetOutput, Conv.mk.injEq, true_and] at h
  exact h

theorem Conv.of_forgetGradients {a b : Conv} (h : a.forgetGradients = b.forgetGradients) :
    a.myInputPadded = b.myInputPadded ∧ a.myKernel = b.myKernel ∧
    a.myOutput = b.myOutput ∧ a.myBias = b.myBias := by
  simp only [Conv.forgetGradients, Conv.mk.injEq, true_and, and_true] at h
  exact h

theorem Conv.of_forgetKernel {a b : Conv} (h : a.forgetKernel = b.forgetKernel) :
    a.myInputPadded = b.myInputPadded ∧
    a.myInputGradientsPadded = b.myInputGradientsPadded ∧
    a.myInputGradients = b.myInputGradients ∧
    a.myKernelGradients = b.myKernelGradients ∧ a.myOutput = b.myOutput ∧
    a.myBias = b.myBias ∧ a.myBiasGradient = b.myBiasGradient := by
  simp only [Conv.forgetKernel, Conv.mk.injEq, true_and] at h
  exact h

/-! ## Padding -/

/-- What `padInput` does: only `myInputPadded` changes, it keeps its size and
holds the zero-padded input. -/
theorem padInput_spec (s : Conv) (input : Matrix2d)
    (hp : s.myInputPadded.IsSquareOf (s.myOutput.length + 2 * (s.myKernel.length / 2))) :
    (s.padInput input).forgetInputPadded = s.forgetInputPadded ∧
    (s.padInput input).myInputPadded.IsSquareOf
      (s.myOutput.length + 2 * (s.myKernel.length / 2)) ∧
    ∀ r c, (s.padInput input).myInputPadded.at r c
      = zeroPadded input s.myOutput.length (s.myKernel.length / 2) r c := by
  let N := s.myOutput.length
  let p := s.myKernel.length / 2
  let I : Conv → Prop := fun st =>
    st.forgetInputPadded = s.forgetInputPadded ∧ st.myInputPadded.IsSquareOf (N + 2 * p)
  let V : Conv → Nat × Nat → ℚ := fun st x => st.myInputPadded.at x.1 x.2
  let val : Nat × Nat → ℚ := fun x => input.at (x.1 - p) (x.2 - p)
  have inner : ∀ i st, i < N → I st →
      I (forLoop N (fun j st => { st with
          myInputPadded := st.myInputPadded.put (i + p) (j + p) (input.at i j) }) st) ∧
      (∀ x, (∃ j, j < N ∧ x = (i + p, j + p)) →
        V (forLoop N (fun j st => { st with
          myInputPadded := st.myInputPadded.put (i + p) (j + p) (input.at i j) }) st) x
          = val x) ∧
      (∀ x, (¬ ∃ j, j < N ∧ x = (i + p, j + p)) →
        V (forLoop N (fun j st => { st with
          myInputPadded := st.myInputPadded.put (i + p) (j + p) (input.at i j) }) st) x
          = V st x) := by
    intro i st hi hI
    refine forLoop_fill I V (fun j x => x = (i + p, j + p)) val N _ st ?_ hI
    intro j st2 hj hI2
    refine ⟨⟨hI2.1, Matrix2d.put_isSquareOf hI2.2 _ _ _⟩, ?_, ?_⟩
    · rintro x rfl
      show (st2.myInputPadded.put (i + p) (j + p) (input.at i j)).at (i + p) (j + p) = _
      rw [Matrix2d.at_put_of_isSquareOf hI2.2 _ _ _ _ _ (by omega) (by omega)]
      simp [val]
    · intro x hx
      show (st2.myInputPadded.put (i + p) (j + p) (input.at i j)).at x.1 x.2 = _
      rw [Matrix2d.at_put, if_neg]
      rintro ⟨h1, h2, _⟩
      exact hx (Prod.ext h1 h2)
  have outer := forLoop_fill I V (fun i x => ∃ j, j < N ∧ x = (i + p, j + p)) val N
    (fun i st => forLoop N (fun j st => { st with
      myInputPadded := st.myInputPadded.put (i + p) (j + p) (input.at i j) }) st)
    { s with myInputPadded := initMatrix s.myInputPadded } inner
    ⟨rfl, initMatrix_isSquareOf hp⟩
  obtain ⟨⟨hf, hsq⟩, hw, hn⟩ := outer
  refine ⟨hf, hsq, ?_⟩
  intro r c
  unfold zeroPadded
  by_cases hc : p ≤ r ∧ r < p + N ∧ p ≤ c ∧ c < p + N
  · rw [if_pos hc]
    exact hw (r, c) ⟨r - p, by omega, c - p, by omega, by
      apply Prod.ext <;> simp <;> omega⟩
  · rw [if_neg hc]
    have := hn (r, c) (by
      rintro ⟨i, hi, j, hj, hx⟩
      simp only [Prod.mk.injEq] at hx
      omega)
    refine this.trans ?_
    exact at_initMatrix _ _ _

/-! ## Shape check -/

theorem isMatrixSquare_iff (m : Matrix2d) : isMatrixSquare m = true ↔ m.IsSquareOf m.length := by
  unfold isMatrixSquare Matrix2d.IsSquareOf
  simp [List.all_eq_true]

/-- The shape check of `feedforward` and `backpropagate` fails exactly on the
arguments that are not `n x n`. -/
theorem shapeCheck_fails_iff (n : Nat) (m : Matrix2d) :
    (!matchDimensions n m.length || !isMatrixSquare m) = true ↔ ¬ m.IsSquareOf n := by
  constructor
  · intro h hsq
    have h1 : matchDimensions n m.length = true := by
      simp [matchDimensions, hsq.1]
    have h2 : isMatrixSquare m = true := by
      rw [isMatrixSquare_iff, hsq.1]
      exact hsq
    rw [h1, h2] at h
    simp at h
  · intro hsq
    by_cases h1 : matchDimensions n m.length = true
    · have hn : n = m.length := by simpa [matchDimensions] using h1
      have h2 : ¬ isMatrixSquare m = true := by
        rw [isMatrixSquare_iff, ← hn]
        exact hsq
      simp [h2]
    · simp [h1]

theorem reluOutput_eq_max (x : ℚ) : reluOutput x = max 0 x := by
  unfold reluOutput
  by_cases h : x > 0
  · rw [if_pos h, max_eq_right (le_of_lt h)]
  · rw [if_neg h, max_eq_left (not_lt.mp h)]

/-! ## Forward pass -/

/-- The running sum of the two kernel loops, started at `b`. -/
theorem kernelLoops_sum (K : Nat) (f : Nat → Nat → ℚ) (b : ℚ) :
    forLoop K (fun ki sum => forLoop K (fun kj sum => sum + f ki kj) sum) b
      = b + ∑ ki in Finset.range K, ∑ kj in Finset.range K, f ki kj := by
  have inner : ∀ ki (x : ℚ), forLoop K (fun kj sum => sum + f ki kj) x
      = x + ∑ kj in Finset.range K, f ki kj := by
    intro ki x
    exact (forLoop_sum (fun _ => True) id (fun kj => f ki kj) K _ x
      (fun _ _ _ _ => ⟨trivial, rfl⟩) trivial).2
  exact (forLoop_sum (fun _ => True) id (fun ki => ∑ kj in Finset.range K, f ki kj) K _ b
    (fun ki x _ _ => ⟨trivial, inner ki x⟩) trivial).2

theorem feedforward_of_not_square (s : Conv) (input : Matrix2d)
    (h : ¬ input.IsSquareOf s.myOutput.length) : s.feedforward input = (false, s) := by
  unfold Conv.feedforward
  rw [if_pos ((shapeCheck_fails_iff _ _).mpr h)]

/-- What a `feedforward` call that passes the shape check does. -/
theorem feedforward_spec (s : Conv) (input : Matrix2d)
    (hin : input.IsSquareOf s.myOutput.length)
    (hp : s.myInputPadded.IsSquareOf (s.myOutput.length + 2 * (s.myKernel.length / 2)))
    (ho : s.myOutput.IsSquareOf s.myOutput.length) :
    (s.feedforward input).1 = true ∧
    (s.feedforward input).2.forgetOutput = (s.padInput input).forgetOutput ∧
    (s.feedforward input).2.myOutput.IsSquareOf s.myOutput.length ∧
    ∀ i j, i < s.myOutput.length → j < s.myOutput.length →
      (s.feedforward input).2.myOutput.at i j
        = reluOutput (s.myBias + ∑ ki in Finset.range s.myKernel.length,
            ∑ kj in Finset.range s.myKernel.length,
              (s.padInput input).myInputPadded.at (i + ki) (j + kj) * s.myKernel.at ki kj) := by
  obtain ⟨hf, -, -⟩ := padInput_spec s input hp
  obtain ⟨-, -, hk1, -, ho1, hb1, -⟩ := Conv.of_forgetInputPadded hf
  let s1 := s.padInput input
  let N := s.myOutput.length
  let K := s.myKernel.length
  let I : Conv → Prop := fun st =>
    st.forgetOutput = s1.forgetOutput ∧ st.myOutput.IsSquareOf N
  let V : Conv → Nat × Nat → ℚ := fun st x => st.myOutput.at x.1 x.2
  let val : Nat × Nat → ℚ := fun x =>
    reluOutput (s.myBias + ∑ ki in Finset.range K, ∑ kj in Finset.range K,
      s1.myInputPadded.at (x.1 + ki) (x.2 + kj) * s.myKernel.at ki kj)
  let body : Nat → Nat → Conv → Conv := fun i j st =>
    let sum :=
      forLoop s1.myKernel.length (fun ki sum =>
        forLoop s1.myKernel.length (fun kj sum =>
          sum + st.myInputPadded.at (i + ki) (j + kj) * st.myKernel.at ki kj) sum)
        st.myBias
    { st with myOutput := st.myOutput.put i j (reluOutput sum) }
  have hbody : ∀ i j st, i < N → j < N → I st →
      I (body i j st) ∧ (∀ x, x = (i, j) → V (body i j st) x = val x) ∧
        (∀ x, ¬ x = (i, j) → V (body i j st) x = V st x) := by
    intro i j st hi hj hI
    obtain ⟨e1, -, -, e2, -, e3, -⟩ := Conv.of_forgetOutput hI.1
    replace e2 : st.myKernel = s.myKernel := e2.trans hk1
    replace e3 : st.myBias = s.myBias := e3.trans hb1
    refine ⟨⟨hI.1, Matrix2d.put_isSquareOf hI.2 _ _ _⟩, ?_, ?_⟩
    · rintro x rfl
      show (st.myOutput.put i j _).at i j = _
      rw [Matrix2d.at_put_of_isSquareOf hI.2 _ _ _ _ _ hi hj, if_pos ⟨rfl, rfl⟩,
        kernelLoops_sum, e1, e2, e3, hk1]
    · intro x hx
      show (st.myOutput.put i j _).at x.1 x.2 = _
      rw [Matrix2d.at_put, if_neg]
      rintro ⟨h1, h2, _⟩
      exact hx (Prod.ext h1 h2)
  have inner : ∀ i st, i < N → I st →
      I (forLoop N (body i) st) ∧
      (∀ x, (∃ j, j < N ∧ x = (i, j)) → V (forLoop N (body i) st) x = val x) ∧
      (∀ x, (¬ ∃ j, j < N ∧ x = (i, j)) → V (forLoop N (body i) st) x = V st x) := by
    intro i st hi hI
    exact forLoop_fill I V (fun j x => x = (i, j)) val N (body i) st
      (fun j st2 hj hI2 => hbody i j st2 hi hj hI2) hI
  have outer := forLoop_fill I V (fun i x => ∃ j, j < N ∧ x = (i, j)) val N
    (fun i st => forLoop N (body i) st) s1 inner ⟨rfl, by rw [ho1]; exact ho⟩
  have hrun : s.feedforward input
      = (true, forLoop N (fun i st => forLoop N (body i) st) s1) := by
    unfold Conv.feedforward
    rw [if_neg (by rw [shapeCheck_fails_iff]; exact not_not.mpr hin)]
    show (true, forLoop s1.myOutput.length
      (fun i st => forLoop s1.myOutput.length (body i) st) s1) = _
    rw [ho1]
  rw [hrun]
  obtain ⟨⟨hfo, hsq⟩, hw, -⟩ := outer
  refine ⟨rfl, hfo, hsq, ?_⟩
  intro i j hi hj
  exact hw (i, j) ⟨i, hi, j, hj, rfl⟩

/-- After a successful forward pass on a valid layer `myInputPadded` holds
the zero-padded input. -/
theorem forward_pass_padded (s : Conv) (N K : Nat) (input : Matrix2d)
    (hv : s.Valid N K) (hin : input.IsSquareOf N) :
    (s.feedforward input).1 = true ∧
    ∀ r c, (s.feedforward input).2.myInputPadded.at r c = zeroPadded input N (K / 2) r c := by
  obtain ⟨-, -, -, hp, -, -, hk, -, ho⟩ := hv
  have hN : s.myOutput.length = N := ho.1
  have hK : s.myKernel.length = K := hk.1
  subst hN hK
  obtain ⟨hflag, hframe, -, -⟩ := feedforward_spec s input hin hp ho
  obtain ⟨-, -, hpad⟩ := padInput_spec s input hp
  obtain ⟨e1, -, -, -, -, -, -⟩ := Conv.of_forgetOutput hframe
  refine ⟨hflag, fun r c => ?_⟩
  rw [e1]
  exact hpad r c

/-- C3. For every layer state and every input that is not an `N x N` square
matrix, `N = outputSize()`, `feedforward` returns `false` and the state after
the call is the state before it, `output` and `inputPadded` included. -/
theorem feedforward_rejects_non_square (s : Conv) (input : Matrix2d)
    (h : ¬ input.IsSquareOf s.outputSize) :
    (s.feedforward input).1 = false ∧ (s.feedforward input).2 = s ∧
      (s.feedforward input).2.output = s.output ∧
      (s.feedforward input).2.myInputPadded = s.myInputPadded := by
  rw [feedforward_of_not_square s input h]
  exact ⟨rfl, rfl, rfl, rfl⟩

/-- C3 on the identity layer: a matrix with a short row and a `2 x 2` matrix
are both rejected. -/
theorem feedforward_rejects_non_square_witness :
    (¬ Matrix2d.IsSquareOf [[1, 2, 3], [4, 5], [7, 8, 9]] identityLayer.outputSize) ∧
    (identityLayer.feedforward [[1, 2, 3], [4, 5], [7, 8, 9]]).2 = identityLayer ∧
    (¬ Matrix2d.IsSquareOf [[1, 2], [3, 4]] identityLayer.outputSize) ∧
    (identityLayer.feedforward [[1, 2], [3, 4]]).1 = false :=
  ⟨by decide,
    (feedforward_rejects_non_square identityLayer [[1, 2, 3], [4, 5], [7, 8, 9]]
      (by decide)).2.1,
    by decide,
    (feedforward_rejects_non_square identityLayer [[1, 2], [3, 4]] (by decide)).1⟩

/-- C10. Identity: on a valid layer whose kernel is zero except for a `1` at
`[K/2][K/2]` and whose bias is `0`, `feedforward` on an `N x N` input with
non-negative entries succeeds and leaves `output` equal to the input. -/
theorem feedforward_identity (s : Conv) (N K : Nat) (input : Matrix2d)
    (hv : s.Valid N K) (hin : input.IsSquareOf N)
    (hkernel : ∀ ki, ki < K → ∀ kj, kj < K →
      s.myKernel.at ki kj = if ki = K / 2 ∧ kj = K / 2 then 1 else 0)
    (hbias : s.myBias = 0)
    (hpos : ∀ i, i < N → ∀ j, j < N → 0 ≤ input.at i j) :
    (s.feedforward input).1 = true ∧ (s.feedforward input).2.output = input ∧
      ∀ i j, i < N → j < N → (s.feedforward input).2.output.at i j = input.at i j := by
  obtain ⟨hK1, -, -, hp, -, -, hk, -, ho⟩ := hv
  have hN : s.myOutput.length = N := ho.1
  have hK : s.myKernel.length = K := hk.1
  subst hN hK
  obtain ⟨hflag, -, hsq, hout⟩ := feedforward_spec s input hin hp ho
  obtain ⟨-, -, hpad⟩ := padInput_spec s input hp
  have hpt : ∀ i j, i < s.myOutput.length → j < s.myOutput.length →
      (s.feedforward input).2.myOutput.at i j = input.at i j := by
    intro i j hi hj
    have hc : s.myKernel.length / 2 < s.myKernel.length := Nat.div_lt_self (by omega) (by omega)
    have hsum : (∑ ki in Finset.range s.myKernel.length,
        ∑ kj in Finset.range s.myKernel.length,
          (s.padInput input).myInputPadded.at (i + ki) (j + kj) * s.myKernel.at ki kj)
        = input.at i j := by
      rw [Finset.sum_eq_single (s.myKernel.length / 2)]
      · rw [Finset.sum_eq_single (s.myKernel.length / 2)]
        · rw [hkernel _ hc _ hc, if_pos ⟨rfl, rfl⟩, mul_one, hpad, zeroPadded,
            if_pos (by omega)]
          simp
        · intro kj hkj hne
          rw [hkernel _ hc _ (Finset.mem_range.mp hkj), if_neg (fun h => hne h.2), mul_zero]
        · intro h
          exact absurd (Finset.mem_range.mpr hc) h
      · intro ki hki hne
        apply Finset.sum_eq_zero
        intro kj hkj
        rw [hkernel _ (Finset.mem_range.mp hki) _ (Finset.mem_range.mp hkj),
          if_neg (fun h => hne h.1), mul_zero]
      · intro h
        exact absurd (Finset.mem_range.mpr hc) h
    rw [hout i j hi hj, hsum, hbias, zero_add, reluOutput_eq_max,
      max_eq_right (hpos i hi j hj)]
  exact ⟨hflag, Matrix2d.ext_of_isSquareOf hsq hin hpt, hpt⟩

/-- C10 on the identity test of the specification: `N = 3`, `K = 3`, the
input `[[1,2,3],[4,5,6],[7,8,9]]`. -/
theorem feedforward_identity_witness :
    identityLayer.Valid 3 3 ∧ identityInput.IsSquareOf 3 ∧
      (identityLayer.feedforward identityInput).2.output = identityInput :=
  ⟨by decide, by decide,
    (feedforward_identity identityLayer 3 3 identityInput (by decide) (by decide)
      (by decide) (by decide) (by decide)).2.1⟩

/-! ## Backward pass -/

theorem backpropagate_of_not_square (s : Conv) (outputGradients : Matrix2d)
    (h : ¬ outputGradients.IsSquareOf s.myOutput.length) :
    s.backpropagate outputGradients = (false, s) := by
  unfold Conv.backpropagate
  rw [if_pos ((shapeCheck_fails_iff _ _).mpr h)]

/-- What `extractInputGradients` does: only `myInputGradients` changes, it
keeps its size and holds the interior of `myInputGradientsPadded`. -/
theorem extractInputGradients_spec (t : Conv)
    (hg : t.myInputGradients.IsSquareOf t.myOutput.length) :
    t.extractInputGradients.forgetInputGradients = t.forgetInputGradients ∧
    t.extractInputGradients.myInputGradients.IsSquareOf t.myOutput.length ∧
    ∀ a b, a < t.myOutput.length → b < t.myOutput.length →
      t.extractInputGradients.myInputGradients.at a b
        = t.myInputGradientsPadded.at (a + t.myKernel.length / 2)
            (b + t.myKernel.length / 2) := by
  let N := t.myOutput.length
  let p := t.myKernel.length / 2
  let I : Conv → Prop := fun st =>
    st.forgetInputGradients = t.forgetInputGradients ∧ st.myInputGradients.IsSquareOf N
  let V : Conv → Nat × Nat → ℚ := fun st x => st.myInputGradients.at x.1 x.2
  let val : Nat × Nat → ℚ := fun x => t.myInputGradientsPadded.at (x.1 + p) (x.2 + p)
  let body : Nat → Nat → Conv → Conv := fun i j st =>
    let value := st.myInputGradientsPadded.at (i + p) (j + p)
    { st with myInputGradients := st.myInputGradients.put i j value }
  have hbody : ∀ i j st, i < N → j < N → I st →
      I (body i j st) ∧ (∀ x, x = (i, j) → V (body i j st) x = val x) ∧
        (∀ x, ¬ x = (i, j) → V (body i j st) x = V st x) := by
    intro i j st hi hj hI
    obtain ⟨-, e1, -⟩ := Conv.of_forgetInputGradients hI.1
    refine ⟨⟨hI.1, Matrix2d.put_isSquareOf hI.2 _ _ _⟩, ?_, ?_⟩
    · rintro x rfl
      show (st.myInputGradients.put i j _).at i j = _
      rw [Matrix2d.at_put_of_isSquareOf hI.2 _ _ _ _ _ hi hj, if_pos ⟨rfl, rfl⟩, e1]
    · intro x hx
      show (st.myInputGradients.put i j _).at x.1 x.2 = _
      rw [Matrix2d.at_put, if_neg]
      rintro ⟨h1, h2, _⟩
      exact hx (Prod.ext h1 h2)
  have inner : ∀ i st, i < N → I st →
      I (forLoop N (body i) st) ∧
      (∀ x, (∃ j, j < N ∧ x = (i, j)) → V (forLoop N (body i) st) x = val x) ∧
      (∀ x, (¬ ∃ j, j < N ∧ x = (i, j)) → V (forLoop N (body i) st) x = V st x) := by
    intro i st hi hI
    exact forLoop_fill I V (fun j x => x = (i, j)) val N (body i) st
      (fun j st2 hj hI2 => hbody i j st2 hi hj hI2) hI
  obtain ⟨⟨hf, hsq⟩, hw, -⟩ := forLoop_fill I V (fun i x => ∃ j, j < N ∧ x = (i, j)) val N
    (fun i st => forLoop N (body i) st) t inner ⟨rfl, hg⟩
  refine ⟨hf, hsq, ?_⟩
  intro a b ha hb
  exact hw (a, b) ⟨a, ha, b, hb, rfl⟩

/-- What a `backpropagate` call that passes the shape check does. Every
accumulator cell ends as the sum of what the iterations added to it, the
members that are not gradients keep their values, and `myInputGradients` is
the interior of `myInputGradientsPadded`. -/
theorem backpropagate_spec (s : Conv) (og : Matrix2d)
    (hin : og.IsSquareOf s.myOutput.length)
    (hkg : s.myKernelGradients.IsSquareOf s.myKernel.length)
    (hgp : s.myInputGradientsPadded.IsSquareOf
      (s.myOutput.length + 2 * (s.myKernel.length / 2)))
    (hg : s.myInputGradients.IsSquareOf s.myOutput.length) :
    (s.backpropagate og).1 = true ∧
    (s.backpropagate og).2.forgetGradients = s.forgetGradients ∧
    (s.backpropagate og).2.myKernelGradients.IsSquareOf s.myKernel.length ∧
    (s.backpropagate og).2.myInputGradientsPadded.IsSquareOf
      (s.myOutput.length + 2 * (s.myKernel.length / 2)) ∧
    (s.backpropagate og).2.myInputGradients.IsSquareOf s.myOutput.length ∧
    (∀ x, (s.backpropagate og).2.accumulated x
      = ∑ i in Finset.range s.myOutput.length, ∑ j in Finset.range s.myOutput.length,
          (biasContribution og i j x
            + ∑ ki in Finset.range s.myKernel.length, ∑ kj in Finset.range s.myKernel.length,
                contribution s.myInputPadded s.myKernel og i j ki kj x)) ∧
    ∀ a b, a < s.myOutput.length → b < s.myOutput.length →
      (s.backpropagate og).2.myInputGradients.at a b
        = (s.backpropagate og).2.myInputGradientsPadded.at (a + s.myKernel.length / 2)
            (b + s.myKernel.length / 2) := by
  let N := s.myOutput.length
  let K := s.myKernel.length
  let s0 : Conv :=
    { s with myInputGradientsPadded := initMatrix s.myInputGradientsPadded
             myInputGradients := initMatrix s.myInputGradients
             myKernelGradients := initMatrix s.myKernelGradients
             myBiasGradient := 0 }
  let I : Conv → Prop := fun st =>
    st.forgetAccumulators = s0.forgetAccumulators ∧ st.myKernelGradients.IsSquareOf K ∧
      st.myInputGradientsPadded.IsSquareOf (N + 2 * (K / 2))
  let body4 : Nat → Nat → Nat → Nat → Conv → Conv := fun i j ki kj st =>
    let delta := og.at i j
    let kernelGradient :=
      st.myKernelGradients.at ki kj + st.myInputPadded.at (i + ki) (j + kj) * delta
    let st := { st with
      myKernelGradients := st.myKernelGradients.put ki kj kernelGradient }
    let inputGradient :=
      st.myInputGradientsPadded.at (i + ki) (j + kj) + st.myKernel.at ki kj * delta
    { st with
      myInputGradientsPadded :=
        st.myInputGradientsPadded.put (i + ki) (j + kj) inputGradient }
  let body2 : Nat → Nat → Conv → Conv := fun i j st =>
    forLoop K (fun ki st => forLoop K (body4 i j ki) st)
      { st with myBiasGradient := st.myBiasGradient + og.at i j }
  have h4 : ∀ i j ki kj st, i < N → j < N → ki < K → kj < K → I st →
      I (body4 i j ki kj st) ∧ ∀ x, (body4 i j ki kj st).accumulated x
        = st.accumulated x + contribution s.myInputPadded s.myKernel og i j ki kj x := by
    intro i j ki kj st hi hj hki hkj hI
    obtain ⟨e1, -, e2, -, -⟩ := Conv.of_forgetAccumulators hI.1
    replace e1 : st.myInputPadded = s.myInputPadded := e1
    replace e2 : st.myKernel = s.myKernel := e2
    refine ⟨⟨hI.1, Matrix2d.put_isSquareOf hI.2.1 _ _ _,
      Matrix2d.put_isSquareOf hI.2.2 _ _ _⟩, ?_⟩
    intro x
    cases x with
    | bias => exact (add_zero _).symm
    | kernel a b =>
      show (st.myKernelGradients.put ki kj _).at a b = st.myKernelGradients.at a b + _
      rw [Matrix2d.at_put_add hI.2.1 ki kj hki hkj, e1]
      rfl
    | inputPadded r c =>
      show (st.myInputGradientsPadded.put (i + ki) (j + kj) _).at r c
        = st.myInputGradientsPadded.at r c + _
      rw [Matrix2d.at_put_add hI.2.2 (i + ki) (j + kj) (by omega) (by omega), e2]
      rfl
  have h3 : ∀ i j ki st, i < N → j < N → ki < K → I st →
      I (forLoop K (body4 i j ki) st) ∧ ∀ x, (forLoop K (body4 i j ki) st).accumulated x
        = st.accumulated x + ∑ kj in Finset.range K,
            contribution s.myInputPadded s.myKernel og i j ki kj x := by
    intro i j ki st hi hj hki hI
    exact forLoop_sums I Conv.accumulated
      (fun kj x => contribution s.myInputPadded s.myKernel og i j ki kj x) K (body4 i j ki) st
      (fun kj st2 hkj hI2 => h4 i j ki kj st2 hi hj hki hkj hI2) hI
  have h2 : ∀ i j st, i < N → j < N → I st →
      I (body2 i j st) ∧ ∀ x, (body2 i j st).accumulated x
        = st.accumulated x + (biasContribution og i j x
            + ∑ ki in Finset.range K, ∑ kj in Finset.range K,
                contribution s.myInputPadded s.myKernel og i j ki kj x) := by
    intro i j st hi hj hI
    obtain ⟨hI2, hacc⟩ := forLoop_sums I Conv.accumulated
      (fun ki x => ∑ kj in Finset.range K,
        contribution s.myInputPadded s.myKernel og i j ki kj x) K
      (fun ki st => forLoop K (body4 i j ki) st)
      { st with myBiasGradient := st.myBiasGradient + og.at i j }
      (fun ki st2 hki hI2 => h3 i j ki st2 hi hj hki hI2) ⟨hI.1, hI.2.1, hI.2.2⟩
    refine ⟨hI2, fun x => ?_⟩
    rw [hacc x, ← add_assoc]
    congr 1
    cases x <;> simp [Conv.accumulated, biasContribution]
  have h1 : ∀ i st, i < N → I st →
      I (forLoop N (body2 i) st) ∧ ∀ x, (forLoop N (body2 i) st).accumulated x
        = st.accumulated x + ∑ j in Finset.range N, (biasContribution og i j x
            + ∑ ki in Finset.range K, ∑ kj in Finset.range K,
                contribution s.myInputPadded s.myKernel og i j ki kj x) := by
    intro i st hi hI
    exact forLoop_sums I Conv.accumulated
      (fun j x => biasContribution og i j x + ∑ ki in Finset.range K, ∑ kj in Finset.range K,
        contribution s.myInputPadded s.myKernel og i j ki kj x) N (body2 i) st
      (fun j st2 hj hI2 => h2 i j st2 hi hj hI2) hI
  obtain ⟨hIL, haccL⟩ := forLoop_sums I Conv.accumulated
    (fun i x => ∑ j in Finset.range N, (biasContribution og i j x
      + ∑ ki in Finset.range K, ∑ kj in Finset.range K,
          contribution s.myInputPadded s.myKernel og i j ki kj x)) N
    (fun i st => forLoop N (body2 i) st) s0
    (fun i st hi hI => h1 i st hi hI)
    ⟨rfl, initMatrix_isSquareOf hkg, initMatrix_isSquareOf hgp⟩
  have hrun : s.backpropagate og
      = (true, (forLoop N (fun i st => forLoop N (body2 i) st) s0).extractInputGradients) := by
    unfold Conv.backpropagate
    rw [if_neg (by rw [shapeCheck_fails_iff]; exact not_not.mpr hin)]
  obtain ⟨f1, f2, f3, f4, f5⟩ := Conv.of_forgetAccumulators hIL.1
  have hzero : ∀ x, s0.accumulated x = 0 := by
    intro x
    cases x with
    | bias => rfl
    | kernel a b => exact at_initMatrix _ _ _
    | inputPadded r c => exact at_initMatrix _ _ _
  obtain ⟨g1, g2, g3⟩ := extractInputGradients_spec
    (forLoop N (fun i st => forLoop N (body2 i) st) s0)
    (by rw [f2, f4]; exact initMatrix_isSquareOf hg)
  obtain ⟨k1, k2, k3, k4, k5, k6, k7⟩ := Conv.of_forgetInputGradients g1
  rw [hrun]
  refine ⟨rfl, ?_, ?_, ?_, ?_, ?_, ?_⟩
  · simp only [Conv.forgetGradients, Conv.mk.injEq, true_and, and_true]
    exact ⟨k1.trans f1, k3.trans f3, k5.trans f4, k6.trans f5⟩
  · show Matrix2d.IsSquareOf _ K
    rw [k4]; exact hIL.2.1
  · show Matrix2d.IsSquareOf _ (N + 2 * (K / 2))
    rw [k2]; exact hIL.2.2
  · have := g2
    rw [f4] at this
    exact this
  · intro x
    have hx : (forLoop N (fun i st => forLoop N (body2 i) st) s0).extractInputGradients.accumulated x
        = (forLoop N (fun i st => forLoop N (body2 i) st) s0).accumulated x := by
      cases x with
      | bias => exact k7
      | kernel a b => show Matrix2d.at _ a b = Matrix2d.at _ a b; rw [k4]
      | inputPadded r c => show Matrix2d.at _ r c = Matrix2d.at _ r c; rw [k2]
    rw [hx, haccL x, hzero x, zero_add]
  · intro a b ha hb
    have := g3 a b (by rw [f4]; exact ha) (by rw [f4]; exact hb)
    rw [f3] at this
    rw [this, k2]

/-- A successful `feedforward` keeps the layer valid. -/
theorem feedforward_valid (s : Conv) (N K : Nat) (input : Matrix2d) (hv : s.Valid N K)
    (hin : input.IsSquareOf N) : (s.feedforward input).2.Valid N K := by
  obtain ⟨h1, h2, h3, hp, hgp, hg, hk, hkg, ho⟩ := hv
  have hN : s.myOutput.length = N := ho.1
  have hK : s.myKernel.length = K := hk.1
  subst hN hK
  obtain ⟨-, hframe, hsq, -⟩ := feedforward_spec s input hin hp ho
  obtain ⟨hpf, hpsq, -⟩ := padInput_spec s input hp
  obtain ⟨e1, e2, e3, e4, e5, -, -⟩ := Conv.of_forgetOutput hframe
  obtain ⟨f1, f2, f3, f4, -, -, -⟩ := Conv.of_forgetInputPadded hpf
  refine ⟨h1, h2, h3, ?_, ?_, ?_, ?_, ?_, hsq⟩
  · rw [e1]; exact hpsq
  · rw [e2, f1]; exact hgp
  · rw [e3, f2]; exact hg
  · rw [e4, f3]; exact hk
  · rw [e5, f4]; exact hkg

/-! ## Sums -/

theorem sum_ite_pair (K a b : Nat) (ha : a < K) (hb : b < K) (f : Nat → Nat → ℚ) :
    (∑ ki in Finset.range K, ∑ kj in Finset.range K,
      if a = ki ∧ b = kj then f ki kj else 0) = f a b := by
  rw [Finset.sum_eq_single a]
  · rw [Finset.sum_eq_single b]
    · rw [if_pos ⟨rfl, rfl⟩]
    · intro kj _ hne
      rw [if_neg (fun h => hne h.2.symm)]
    · intro h
      exact absurd (Finset.mem_range.mpr hb) h
  · intro ki _ hne
    apply Finset.sum_eq_zero
    intro kj _
    rw [if_neg (fun h => hne h.1.symm)]
  · intro h
    exact absurd (Finset.mem_range.mpr ha) h

theorem sum_reorder (N K : Nat) (F : Nat → Nat → Nat → Nat → ℚ) :
    (∑ i in Finset.range N, ∑ j in Finset.range N,
      ∑ ki in Finset.range K, ∑ kj in Finset.range K, F i j ki kj)
    = ∑ ki in Finset.range K, ∑ kj in Finset.range K,
        ∑ i in Finset.range N, ∑ j in Finset.range N, F i j ki kj := by
  calc (∑ i in Finset.range N, ∑ j in Finset.range N,
          ∑ ki in Finset.range K, ∑ kj in Finset.range K, F i j ki kj)
      = ∑ i in Finset.range N, ∑ ki in Finset.range K,
          ∑ j in Finset.range N, ∑ kj in Finset.range K, F i j ki kj :=
        Finset.sum_congr rfl (fun i _ => Finset.sum_comm)
    _ = ∑ ki in Finset.range K, ∑ i in Finset.range N,
          ∑ j in Finset.range N, ∑ kj in Finset.range K, F i j ki kj := Finset.sum_comm
    _ = ∑ ki in Finset.range K, ∑ i in Finset.range N,
          ∑ kj in Finset.range K, ∑ j in Finset.range N, F i j ki kj :=
        Finset.sum_congr rfl (fun ki _ => Finset.sum_congr rfl (fun i _ => Finset.sum_comm))
    _ = ∑ ki in Finset.range K, ∑ kj in Finset.range K,
          ∑ i in Finset.range N, ∑ j in Finset.range N, F i j ki kj :=
        Finset.sum_congr rfl (fun ki _ => Finset.sum_comm)

/-- The iterations `(i, j)` that hit the cell `(r, c)` through the kernel
cell `(ki, kj)`: at most one, `(r - ki, c - kj)`. -/
theorem sum_ite_shift (N r c ki kj : Nat) (f : Nat → Nat → ℚ) :
    (∑ i in Finset.range N, ∑ j in Finset.range N,
      if r = i + ki ∧ c = j + kj then f i j else 0)
    = if ki ≤ r ∧ r - ki < N ∧ kj ≤ c ∧ c - kj < N then f (r - ki) (c - kj) else 0 := by
  by_cases hc : ki ≤ r ∧ r - ki < N ∧ kj ≤ c ∧ c - kj < N
  · rw [if_pos hc, Finset.sum_eq_single (r - ki)]
    · rw [Finset.sum_eq_single (c - kj)]
      · rw [if_pos (by omega)]
      · intro j _ hne
        rw [if_neg (by omega)]
      · intro h
        exact absurd (Finset.mem_range.mpr hc.2.2.2) h
    · intro i _ hne
      apply Finset.sum_eq_zero
      intro j _
      rw [if_neg (by omega)]
    · intro h
      exact absurd (Finset.mem_range.mpr hc.2.1) h
  · rw [if_neg hc]
    apply Finset.sum_eq_zero
    intro i hi
    apply Finset.sum_eq_zero
    intro j hj
    have hi2 := Finset.mem_range.mp hi
    have hj2 := Finset.mem_range.mp hj
    rw [if_neg (by omega)]

/-- The scatter form and the gather form of the input gradient agree on the
interior of the padded buffer. -/
theorem scatterGradient_eq_gatherGradient (kernel og : Matrix2d) (N K a b : Nat) :
    scatterGradient kernel og N K (a + K / 2) (b + K / 2) = gatherGradient kernel og N K a b := by
  unfold scatterGradient gatherGradient
  rw [sum_reorder]
  apply Finset.sum_congr rfl
  intro ki _
  apply Finset.sum_congr rfl
  intro kj _
  exact sum_ite_shift N (a + K / 2) (b + K / 2) ki kj (fun i j => kernel.at ki kj * og.at i j)

/-! ## The claims on the backward pass -/

/-- C4. For every layer state and every `outputGradients` that is not an
`N x N` square matrix, `N = outputSize()`, `backpropagate` returns `false`
and leaves `kernelGradients`, `biasGradient`, `inputGradientsPadded` and
`inputGradients` (indeed the whole state) as they were. -/
theorem backpropagate_rejects_non_square (s : Conv) (outputGradients : Matrix2d)
    (h : ¬ outputGradients.IsSquareOf s.outputSize) :
    (s.backpropagate outputGradients).1 = false ∧
    (s.backpropagate outputGradients).2.myKernelGradients = s.myKernelGradients ∧
    (s.backpropagate outputGradients).2.myBiasGradient = s.myBiasGradient ∧
    (s.backpropagate outputGradients).2.myInputGradientsPadded = s.myInputGradientsPadded ∧
    (s.backpropagate outputGradients).2.myInputGradients = s.myInputGradients ∧
    (s.backpropagate outputGradients).2 = s := by
  rw [backpropagate_of_not_square s outputGradients h]
  exact ⟨rfl, rfl, rfl, rfl, rfl, rfl⟩

/-- C4 on the identity layer with a `2 x 2` gradient matrix. -/
theorem backpropagate_rejects_non_square_witness :
    (¬ Matrix2d.IsSquareOf [[1, 2], [3, 4]] identityLayer.outputSize) ∧
    (identityLayer.backpropagate [[1, 2], [3, 4]]).1 = false ∧
    (identityLayer.backpropagate [[1, 2], [3, 4]]).2 = identityLayer :=
  ⟨by decide,
    (backpropagate_rejects_non_square identityLayer [[1, 2], [3, 4]] (by decide)).1,
    (backpropagate_rejects_non_square identityLayer [[1, 2], [3, 4]] (by decide)).2.2.2.2.2⟩

/-! ## Parameter update -/

theorem checkLearningRate_finite (q : ℚ) : checkLearningRate (.finite q) = decide (0 < q) := by
  simp [checkLearningRate, Double.isFinite, Double.value]

theorem optimize_of_rejected (s : Conv) (learningRate : Double)
    (h : checkLearningRate learningRate = false) : s.optimize learningRate = (false, s) := by
  unfold Conv.optimize
  rw [h]
  rfl

/-- What an `optimize` call that passes the learning-rate check does. -/
theorem optimize_spec (s : Conv) (learningRate : Double)
    (h : checkLearningRate learningRate = true)
    (hk : s.myKernel.IsSquareOf s.myKernel.length) :
    (s.optimize learningRate).1 = true ∧
    (s.optimize learningRate).2.forgetKernel
      = { s with myBias := s.myBias - s.myBiasGradient * learningRate.value }.forgetKernel ∧
    (s.optimize learningRate).2.myKernel.IsSquareOf s.myKernel.length ∧
    ∀ a b, a < s.myKernel.length → b < s.myKernel.length →
      (s.optimize learningRate).2.myKernel.at a b
        = s.myKernel.at a b - s.myKernelGradients.at a b * learningRate.value := by
  let K := s.myKernel.length
  let lr := learningRate.value
  let s1 : Conv := { s with myBias := s.myBias - s.myBiasGradient * lr }
  let I : Conv → Prop := fun st =>
    st.forgetKernel = s1.forgetKernel ∧ st.myKernel.IsSquareOf K
  let φ : Conv → Nat × Nat → ℚ := fun st x => st.myKernel.at x.1 x.2
  let c : Nat → Nat → Nat × Nat → ℚ := fun ki kj x =>
    if x.1 = ki ∧ x.2 = kj then -(s.myKernelGradients.at ki kj * lr) else 0
  let body : Nat → Nat → Conv → Conv := fun ki kj st =>
    let weight := st.myKernel.at ki kj - st.myKernelGradients.at ki kj * lr
    { st with myKernel := st.myKernel.put ki kj weight }
  have hbody : ∀ ki kj st, ki < K → kj < K → I st →
      I (body ki kj st) ∧ ∀ x, φ (body ki kj st) x = φ st x + c ki kj x := by
    intro ki kj st hki hkj hI
    obtain ⟨-, -, -, e1, -, -, -⟩ := Conv.of_forgetKernel hI.1
    replace e1 : st.myKernelGradients = s.myKernelGradients := e1
    refine ⟨⟨hI.1, Matrix2d.put_isSquareOf hI.2 _ _ _⟩, ?_⟩
    intro x
    show (st.myKernel.put ki kj (st.myKernel.at ki kj - _)).at x.1 x.2 = _
    rw [sub_eq_add_neg, Matrix2d.at_put_add hI.2 ki kj hki hkj, e1]
  have inner : ∀ ki st, ki < K → I st →
      I (forLoop K (body ki) st) ∧ ∀ x, φ (forLoop K (body ki) st) x
        = φ st x + ∑ kj in Finset.range K, c ki kj x := by
    intro ki st hki hI
    exact forLoop_sums I φ (fun kj x => c ki kj x) K (body ki) st
      (fun kj st2 hkj hI2 => hbody ki kj st2 hki hkj hI2) hI
  obtain ⟨⟨hf, hsq⟩, hacc⟩ := forLoop_sums I φ
    (fun ki x => ∑ kj in Finset.range K, c ki kj x) K
    (fun ki st => forLoop K (body ki) st) s1 inner ⟨rfl, hk⟩
  have hrun : s.optimize learningRate
      = (true, forLoop K (fun ki st => forLoop K (body ki) st) s1) := by
    unfold Conv.optimize
    rw [h]
    rfl
  rw [hrun]
  refine ⟨rfl, hf, hsq, ?_⟩
  intro a b ha hb
  have := hacc (a, b)
  simp only [φ, c] at this
  rw [this, sum_ite_pair K a b ha hb (fun ki kj => -(s.myKernelGradients.at ki kj * lr)),
    ← sub_eq_add_neg]

/-- C5. For every layer state, `optimize` with a learning rate that is
non-finite or `≤ 0` returns `false` and leaves kernel and bias (indeed the
whole state) unchanged; with a finite positive learning rate it returns
`true`. -/
theorem optimize_checks_learningRate (s : Conv) (learningRate : Double) :
    ((learningRate.isFinite = false ∨ ∃ q, learningRate = .finite q ∧ q ≤ 0) →
      (s.optimize learningRate).1 = false ∧
      (s.optimize learningRate).2.myKernel = s.myKernel ∧
      (s.optimize learningRate).2.myBias = s.myBias ∧
      (s.optimize learningRate).2 = s) ∧
    ((∃ q, learningRate = .finite q ∧ 0 < q) → (s.optimize learningRate).1 = true) := by
  constructor
  · intro h
    have hrej : checkLearningRate learningRate = false := by
      rcases h with h | ⟨q, rfl, hq⟩
      · simp [checkLearningRate, h]
      · rw [checkLearningRate_finite]
        exact decide_eq_false (not_lt.mpr hq)
    rw [optimize_of_rejected s learningRate hrej]
    exact ⟨rfl, rfl, rfl, rfl⟩
  · rintro ⟨q, rfl, hq⟩
    have hacc : checkLearningRate (.finite q) = true := by
      rw [checkLearningRate_finite]
      exact decide_eq_true hq
    unfold Conv.optimize
    rw [hacc]
    rfl

/-- C5 on the identity layer: the rates `0`, `-1/2`, `+inf` and `NaN` are
rejected and the state is kept, the rate `1/100` is accepted. -/
theorem optimize_checks_learningRate_witness :
    (identityLayer.optimize (.finite 0)).2 = identityLayer ∧
    (identityLayer.optimize (.finite (-1 / 2))).1 = false ∧
    (identityLayer.optimize .posInf).1 = false ∧
    (identityLayer.optimize .nan).2 = identityLayer ∧
    (identityLayer.optimize (.finite (1 / 100))).1 = true :=
  ⟨((optimize_checks_learningRate identityLayer (.finite 0)).1
      (Or.inr ⟨0, rfl, le_refl 0⟩)).2.2.2,
    ((optimize_checks_learningRate identityLayer (.finite (-1 / 2))).1
      (Or.inr ⟨-1 / 2, rfl, by norm_num⟩)).1,
    ((optimize_checks_learningRate identityLayer .posInf).1 (Or.inl rfl)).1,
    ((optimize_checks_learningRate identityLayer .nan).1 (Or.inl rfl)).2.2.2,
    (optimize_checks_learningRate identityLayer (.finite (1 / 100))).2
      ⟨1 / 100, rfl, by norm_num⟩⟩

/-! ## Zero kernel, ones gradients, zero learning rate -/

theorem onesMatrix_isSquareOf (n : Nat) : (onesMatrix n).IsSquareOf n := by
  refine ⟨by simp [onesMatrix], ?_⟩
  intro row hrow
  rw [onesMatrix, List.mem_replicate] at hrow
  rw [hrow.2]
  simp

theorem at_onesMatrix (n a b : Nat) (ha : a < n) (hb : b < n) : (onesMatrix n).at a b = 1 := by
  unfold Matrix2d.at onesMatrix
  simp [List.getD_eq_getElem?_getD, List.getElem?_replicate, ha, hb]

theorem list_set_getD_self {α : Type} (l : List α) (i : Nat) (d : α) :
    l.set i (l.getD i d) = l := by
  apply List.ext_getElem?
  intro n
  rw [List.getElem?_set]
  by_cases hin : i = n
  · subst hin
    by_cases hi : i < l.length
    · rw [if_pos rfl, if_pos hi, List.getD_eq_getElem l d hi, List.getElem?_eq_getElem hi]
    · rw [if_pos rfl, if_neg hi, List.getElem?_eq_none (Nat.le_of_not_lt hi)]
  · rw [if_neg hin]

/-- Writing back the value a cell holds changes nothing. -/
theorem Matrix2d.put_at_self (m : Matrix2d) (i j : Nat) : m.put i j (m.at i j) = m := by
  unfold Matrix2d.put Matrix2d.at
  rw [list_set_getD_self, list_set_getD_self]

/-- C11. On a valid layer whose kernel is all zeros and whose bias is `0`,
`feedforward` on any `N x N` input succeeds and every entry of `output` is
`0`: `output` is the `N x N` zero matrix. -/
theorem feedforward_zero_kernel (s : Conv) (N K : Nat) (input : Matrix2d)
    (hv : s.Valid N K) (hin : input.IsSquareOf N)
    (hkernel : ∀ ki, ki < K → ∀ kj, kj < K → s.myKernel.at ki kj = 0)
    (hbias : s.myBias = 0) :
    (s.feedforward input).1 = true ∧
    (∀ i j, i < N → j < N → (s.feedforward input).2.output.at i j = 0) ∧
    (s.feedforward input).2.output = initMatrixSize N := by
  obtain ⟨-, -, -, hp, -, -, hk, -, ho⟩ := hv
  have hN : s.myOutput.length = N := ho.1
  have hK : s.myKernel.length = K := hk.1
  subst hN hK
  obtain ⟨hflag, -, hsq, hout⟩ := feedforward_spec s input hin hp ho
  have hpt : ∀ i j, i < s.myOutput.length → j < s.myOutput.length →
      (s.feedforward input).2.myOutput.at i j = 0 := by
    intro i j hi hj
    have hsum : (∑ ki in Finset.range s.myKernel.length,
        ∑ kj in Finset.range s.myKernel.length,
          (s.padInput input).myInputPadded.at (i + ki) (j + kj) * s.myKernel.at ki kj) = 0 := by
      apply Finset.sum_eq_zero
      intro ki hki
      apply Finset.sum_eq_zero
      intro kj hkj
      rw [hkernel ki (Finset.mem_range.mp hki) kj (Finset.mem_range.mp hkj), mul_zero]
    rw [hout i j hi hj, hsum, hbias, add_zero, reluOutput_eq_max, max_self]
  refine ⟨hflag, hpt, ?_⟩
  apply Matrix2d.ext_of_isSquareOf hsq (initMatrixSize_isSquareOf _)
  intro a b ha hb
  show (s.feedforward input).2.myOutput.at a b = _
  rw [hpt a b ha hb, at_initMatrixSize]

/-- C11 on the `3 x 3` layer with the zero kernel and the input of the
identity test. -/
theorem feedforward_zero_kernel_witness :
    Conv.Valid { identityLayer with myKernel := initMatrixSize 3 } 3 3 ∧
      identityInput.IsSquareOf 3 ∧
      (Conv.feedforward { identityLayer with myKernel := initMatrixSize 3 }
        identityInput).2.output = initMatrixSize 3 :=
  ⟨by decide, by decide,
    (feedforward_zero_kernel { identityLayer with myKernel := initMatrixSize 3 } 3 3
      identityInput (by decide) (by decide) (by decide) (by decide)).2.2⟩

/-! ## Frames that hold in every state -/

theorem Conv.of_forgetForward {a b : Conv} (h : a.forgetForward = b.forgetForward) :
    a.myInputGradientsPadded = b.myInputGradientsPadded ∧
    a.myInputGradients = b.myInputGradients ∧ a.myKernel = b.myKernel ∧
    a.myKernelGradients = b.myKernelGradients ∧
    a.myBias = b.myBias ∧ a.myBiasGradient = b.myBiasGradient := by
  simp only [Conv.forgetForward, Conv.mk.injEq, true_and] at h
  exact h

/-- In every state `padInput` writes `myInputPadded` only. -/
theorem padInput_frame (s : Conv) (input : Matrix2d) :
    (s.padInput input).forgetInputPadded = s.forgetInputPadded := by
  unfold Conv.padInput
  exact forLoop_inv (fun st : Conv => st.forgetInputPadded = s.forgetInputPadded) _ _ _
    (fun i st _ hI => forLoop_inv (fun st : Conv => st.forgetInputPadded = s.forgetInputPadded)
      _ _ _ (fun j st2 _ hI2 => hI2) hI) rfl

/-- In every state, and whatever the argument, `feedforward` writes
`myInputPadded` and `myOutput` only. -/
theorem feedforward_frame (s : Conv) (input : Matrix2d) :
    (s.feedforward input).2.forgetForward = s.forgetForward := by
  by_cases h : input.IsSquareOf s.myOutput.length
  · unfold Conv.feedforward
    rw [if_neg (by rw [shapeCheck_fails_iff]; exact not_not.mpr h)]
    exact forLoop_inv (fun st : Conv => st.forgetForward = s.forgetForward) _ _ _
      (fun i st _ hI => forLoop_inv (fun st : Conv => st.forgetForward = s.forgetForward)
        _ _ _ (fun j st2 _ hI2 => hI2) hI)
      (congrArg Conv.forgetOutput (padInput_frame s input))
  · rw [feedforward_of_not_square s input h]

/-- In every state, and whatever the argument, `backpropagate` writes the
four gradient members only. -/
theorem backpropagate_frame (s : Conv) (outputGradients : Matrix2d) :
    (s.backpropagate outputGradients).2.forgetGradients = s.forgetGradients := by
  by_cases h : outputGradients.IsSquareOf s.myOutput.length
  · unfold Conv.backpropagate
    rw [if_neg (by rw [shapeCheck_fails_iff]; exact not_not.mpr h)]
    unfold Conv.extractInputGradients
    refine forLoop_inv (fun st : Conv => st.forgetGradients = s.forgetGradients) _ _ _
      (fun i st _ hI => forLoop_inv (fun st : Conv => st.forgetGradients = s.forgetGradients)
        _ _ _ (fun j st2 _ hI2 => hI2) hI) ?_
    exact forLoop_inv (fun st : Conv => st.forgetGradients = s.forgetGradients) _ _ _
      (fun i st _ hI => forLoop_inv (fun st : Conv => st.forgetGradients = s.forgetGradients)
        _ _ _ (fun j st2 _ hI2 =>
          forLoop_inv (fun st : Conv => st.forgetGradients = s.forgetGradients) _ _ _
            (fun ki st3 _ hI3 =>
              forLoop_inv (fun st : Conv => st.forgetGradients = s.forgetGradients) _ _ _
                (fun kj st4 _ hI4 => hI4) hI3) hI2) hI) rfl
  · rw [backpropagate_of_not_square s outputGradients h]

/-- C14. Kernel and bias are written by `optimize` only: in every state and
for every argument, accepted or rejected, `feedforward` leaves kernel, bias
and the four gradient buffers as they were, and `backpropagate` leaves
kernel, bias, `output` and `inputPadded` as they were. -/
theorem kernel_bias_frame (s : Conv) (argument : Matrix2d) :
    ((s.feedforward argument).2.myKernel = s.myKernel ∧
      (s.feedforward argument).2.myBias = s.myBias ∧
      (s.feedforward argument).2.myKernelGradients = s.myKernelGradients ∧
      (s.feedforward argument).2.myBiasGradient = s.myBiasGradient ∧
      (s.feedforward argument).2.myInputGradientsPadded = s.myInputGradientsPadded ∧
      (s.feedforward argument).2.myInputGradients = s.myInputGradients) ∧
    ((s.backpropagate argument).2.myKernel = s.myKernel ∧
      (s.backpropagate argument).2.myBias = s.myBias ∧
      (s.backpropagate argument).2.myOutput = s.myOutput ∧
      (s.backpropagate argument).2.myInputPadded = s.myInputPadded) := by
  obtain ⟨e1, e2, e3, e4, e5, e6⟩ := Conv.of_forgetForward (feedforward_frame s argument)
  obtain ⟨f1, f2, f3, f4⟩ := Conv.of_forgetGradients (backpropagate_frame s argument)
  exact ⟨⟨e3, e5, e4, e6, e1, e2⟩, ⟨f2, f4, f3, f1⟩⟩

/-! ## End to end -/

/-- The bias gradient after a successful backward pass on a valid layer. -/
theorem backpropagate_bias_sum (s : Conv) (N K : Nat) (og : Matrix2d) (hv : s.Valid N K)
    (hog : og.IsSquareOf N) :
    (s.backpropagate og).1 = true ∧
    (s.backpropagate og).2.myBiasGradient
      = ∑ i in Finset.range N, ∑ j in Finset.range N, og.at i j := by
  obtain ⟨-, -, -, -, hgp, hg, hk, hkg, ho⟩ := hv
  have hN : s.myOutput.length = N := ho.1
  have hK : s.myKernel.length = K := hk.1
  subst hN hK
  obtain ⟨hflag, -, -, -, -, hacc, -⟩ := backpropagate_spec s og hog hkg hgp hg
  refine ⟨hflag, ?_⟩
  have := hacc .bias
  simp only [Conv.accumulated, biasContribution, contribution, Finset.sum_const_zero,
    add_zero] at this
  exact this

theorem sum_onesMatrix (N : Nat) :
    (∑ i in Finset.range N, ∑ j in Finset.range N, (onesMatrix N).at i j)
      = (N : ℚ) * (N : ℚ) := by
  have : ∀ i ∈ Finset.range N,
      (∑ j in Finset.range N, (onesMatrix N).at i j) = (N : ℚ) := by
    intro i hi
    rw [Finset.sum_congr rfl (fun j hj =>
      at_onesMatrix N i j (Finset.mem_range.mp hi) (Finset.mem_range.mp hj))]
    simp
  rw [Finset.sum_congr rfl this]
  simp

/-- The innermost statement of `optimize` with the learning rate `0` changes
nothing. -/
theorem optimize_zero_body (st : Conv) (ki kj : Nat) :
    ({ st with
        myKernel :=
          st.myKernel.put ki kj (st.myKernel.at ki kj - st.myKernelGradients.at ki kj * 0) }
      : Conv) = st := by
  rw [mul_zero, sub_zero, Matrix2d.put_at_self]

/-- C13. In every layer state, whatever kernel, bias and gradients hold,
`optimize(0)` leaves kernel and bias unchanged: with any learning-rate check
in place of `checkLearningRate`, whether it accepts `0` or rejects it, and so
with `checkLearningRate` itself. -/
theorem optimize_zero_rate (s : Conv) (check : Double → Bool) :
    (s.optimizeWith check (.finite 0)).2.myKernel = s.myKernel ∧
    (s.optimizeWith check (.finite 0)).2.myBias = s.myBias ∧
    Conv.optimize = Conv.optimizeWith checkLearningRate ∧
    (s.optimize (.finite 0)).2.myKernel = s.myKernel ∧
    (s.optimize (.finite 0)).2.myBias = s.myBias := by
  have hany : ∀ chk : Double → Bool, (s.optimizeWith chk (.finite 0)).2 = s := by
    intro chk
    have hval : (Double.finite 0).value = 0 := rfl
    by_cases hc : chk (.finite 0) = true
    · unfold Conv.optimizeWith
      rw [hc, hval]
      have hs1 : ({ s with myBias := s.myBias - s.myBiasGradient * 0 } : Conv) = s := by
        rw [mul_zero, sub_zero]
      simp only [Bool.not_true, Bool.false_eq_true, if_false]
      rw [hs1]
      exact forLoop_inv (fun st : Conv => st = s) _ _ _
        (fun ki st _ hI => forLoop_inv (fun st : Conv => st = s) _ _ _
          (fun kj st2 _ hI2 => (optimize_zero_body st2 ki kj).trans hI2) hI) rfl
    · have hf : chk (.finite 0) = false := by simpa using hc
      unfold Conv.optimizeWith
      rw [hf]
      rfl
  have heq : Conv.optimize = Conv.optimizeWith checkLearningRate := rfl
  refine ⟨by rw [hany check], by rw [hany check], heq, ?_, ?_⟩
  · rw [heq, hany checkLearningRate]
  · rw [heq, hany checkLearningRate]

/-! ## The shape invariant -/

/-- A successful construction yields a valid layer. -/
theorem construct_valid (randomStartVal : Nat → ℚ) (N K : Nat) (s : Conv)
    (h : Conv.construct randomStartVal N K = .ok s) : s.Valid N K := by
  obtain ⟨h1, h2, h3⟩ := (construct_sizes randomStartVal N K s h).1
  unfold Conv.construct at h
  rw [if_neg (by simp only [kMinKernelSize, kMaxKernelSize]; omega), if_neg (by omega)] at h
  cases h
  refine ⟨h1, h2, h3, initMatrixSize_isSquareOf _, initMatrixSize_isSquareOf _,
    initMatrixSize_isSquareOf _, ?_, initMatrixSize_isSquareOf _, initMatrixSize_isSquareOf _⟩
  exact forLoop_inv (fun m : Matrix2d => m.IsSquareOf K) _ _ _
    (fun ki m _ hI => forLoop_inv (fun m : Matrix2d => m.IsSquareOf K) _ _ _
      (fun kj m2 _ hI2 => Matrix2d.put_isSquareOf hI2 _ _ _) hI)
    (initMatrixSize_isSquareOf K)

/-- Whatever the argument, `feedforward` keeps the layer valid. -/
theorem feedforward_keeps_valid (s : Conv) (N K : Nat) (input : Matrix2d) (hv : s.Valid N K) :
    (s.feedforward input).2.Valid N K := by
  by_cases h : input.IsSquareOf s.myOutput.length
  · exact feedforward_valid s N K input hv (by rw [← hv.2.2.2.2.2.2.2.2.1]; exact h)
  · rw [feedforward_of_not_square s input h]
    exact hv

/-- Whatever the argument, `backpropagate` keeps the layer valid. -/
theorem backpropagate_keeps_valid (s : Conv) (N K : Nat) (og : Matrix2d) (hv : s.Valid N K) :
    (s.backpropagate og).2.Valid N K := by
  by_cases h : og.IsSquareOf s.myOutput.length
  · obtain ⟨h1, h2, h3, hp, hgp, hg, hk, hkg, ho⟩ := hv
    have hN : s.myOutput.length = N := ho.1
    have hK : s.myKernel.length = K := hk.1
    subst hN hK
    obtain ⟨-, hframe, q1, q2, q3, -, -⟩ := backpropagate_spec s og h hkg hgp hg
    obtain ⟨f1, f2, f3, -⟩ := Conv.of_forgetGradients hframe
    refine ⟨h1, h2, h3, ?_, q2, q3, ?_, q1, ?_⟩
    · rw [f1]; exact hp
    · rw [f2]; exact hk
    · rw [f3]; exact ho
  · rw [backpropagate_of_not_square s og h]
    exact hv

/-- Whatever the learning rate, `optimize` keeps the layer valid. -/
theorem optimize_keeps_valid (s : Conv) (N K : Nat) (learningRate : Double)
    (hv : s.Valid N K) : (s.optimize learningRate).2.Valid N K := by
  by_cases h : checkLearningRate learningRate = true
  · obtain ⟨h1, h2, h3, hp, hgp, hg, hk, hkg, ho⟩ := hv
    have hK : s.myKernel.length = K := hk.1
    subst hK
    obtain ⟨-, hframe, hsq, -⟩ := optimize_spec s learningRate h hk
    obtain ⟨e1, e2, e3, e4, e5, -, -⟩ := Conv.of_forgetKernel hframe
    refine ⟨h1, h2, h3, ?_, ?_, ?_, hsq, ?_, ?_⟩
    · rw [e1]; exact hp
    · rw [e2]; exact hgp
    · rw [e3]; exact hg
    · rw [e4]; exact hkg
    · rw [e5]; exact ho
  · rw [optimize_of_rejected s learningRate (by simpa using h)]
    exact hv

theorem run_keeps_valid (N K : Nat) (calls : List Call) :
    ∀ s : Conv, s.Valid N K → (s.run calls).Valid N K := by
  induction calls with
  | nil => intro s hv; exact hv
  | cons c rest ih =>
    intro s hv
    show Conv.Valid (List.foldl Conv.call (s.call c) rest) N K
    apply ih
    cases c with
    | feedforward input => exact feedforward_keeps_valid s N K input hv
    | backpropagate og => exact backpropagate_keeps_valid s N K og hv
    | optimize lr => exact optimize_keeps_valid s N K lr hv

/-- C15. Shape invariant: in the state produced by a successful construction
with `(N, K)` and in every state reached from it by any sequence of
`feedforward`, `backpropagate` and `optimize` calls with arbitrary arguments,
`1 ≤ K ≤ 11`, `K ≤ N`, `output` and `inputGradients` are `N x N`, `kernel` and
`kernelGradients` are `K x K`, `inputPadded` and `inputGradientsPadded` are
`(N + 2 * (K / 2))` square; hence `inputSize()` and `outputSize()` stay `N`. -/
theorem shape_invariant (randomStartVal : Nat → ℚ) (N K : Nat) (s : Conv)
    (h : Conv.construct randomStartVal N K = .ok s) (calls : List Call) :
    (1 ≤ K ∧ K ≤ 11 ∧ K ≤ N) ∧
    (s.run calls).myOutput.IsSquareOf N ∧
    (s.run calls).myInputGradients.IsSquareOf N ∧
    (s.run calls).myKernel.IsSquareOf K ∧
    (s.run calls).myKernelGradients.IsSquareOf K ∧
    (s.run calls).myInputPadded.IsSquareOf (N + 2 * (K / 2)) ∧
    (s.run calls).myInputGradientsPadded.IsSquareOf (N + 2 * (K / 2)) ∧
    (s.run calls).inputSize = N ∧ (s.run calls).outputSize = N := by
  obtain ⟨h1, h2, h3, hp, hgp, hg, hk, hkg, ho⟩ :=
    run_keeps_valid N K calls s (construct_valid randomStartVal N K s h)
  exact ⟨⟨h1, h2, h3⟩, ho, hg, hk, hkg, hp, hgp, hg.1, ho.1⟩

/-- C15 on the layer built with `N = 5`, `K = 3` after a rejected
`feedforward`, an accepted `backpropagate` and an accepted `optimize`. -/
theorem shape_invariant_witness :
    ∃ s, Conv.construct (fun n => n) 5 3 = .ok s ∧
      (s.run [.feedforward identityInput, .backpropagate (onesMatrix 5),
        .optimize (.finite 1)]).myInputPadded.IsSquareOf (5 + 2 * (3 / 2)) := by
  obtain ⟨s, hs⟩ := construct_eq_ok (fun n => n) 5 3 (by decide) (by decide) (by decide)
  exact ⟨s, hs, (shape_invariant (fun n => n) 5 3 s hs _).2.2.2.2.2.1⟩

/-! ## The bound on the kernel size -/

/-- C16, as stated, fails: `Conv(3, 3)` is constructed although the kernel
size is not smaller than the input size. -/
theorem construct_equal_sizes_accepted :
    (∃ s, Conv.construct (fun _ => 0) 3 3 = .ok s) ∧ ¬ (0 < 3 ∧ 3 < 3) :=
  ⟨construct_eq_ok (fun _ => 0) 3 3 (by decide) (by decide) (by decide), by decide⟩

/-- C16, amended. Construction of `Conv(N, K)` succeeds only if `0 < K` and
`K ≤ N`: the kernel size must be greater than `0` and not greater than the
input size, and `K = N` is accepted whenever `1 ≤ K ≤ 11`. -/
theorem construct_only_if (randomStartVal : Nat → ℚ) (N K : Nat) :
    ((∃ s, Conv.construct randomStartVal N K = .ok s) → 0 < K ∧ K ≤ N) ∧
    (1 ≤ K → K ≤ 11 → ∃ s, Conv.construct randomStartVal K K = .ok s) := by
  constructor
  · rintro ⟨s, hs⟩
    obtain ⟨h1, -, h3⟩ := (construct_sizes randomStartVal N K s hs).1
    exact ⟨h1, h3⟩
  · intro h1 h2
    exact construct_eq_ok randomStartVal K K h1 h2 (le_refl K)

/-- C16, amended, at `N = K = 3`. -/
theorem construct_only_if_witness :
    (∃ s, Conv.construct (fun _ => 0) 3 3 = .ok s) ∧ (0 < 3 ∧ 3 ≤ 3) :=
  ⟨(construct_only_if (fun _ => 0) 3 3).2 (by decide) (by decide),
    (construct_only_if (fun _ => 0) 3 3).1
      ((construct_only_if (fun _ => 0) 3 3).2 (by decide) (by decide))⟩

/-! ## Overwriting and resetting -/

/-- The output of a successful forward pass on a valid layer, in terms of
the input, the kernel and the bias. -/
theorem feedforward_output_formula (s : Conv) (N K : Nat) (input : Matrix2d)
    (hv : s.Valid N K) (hin : input.IsSquareOf N) :
    ∀ i j, i < N → j < N →
      (s.feedforward input).2.myOutput.at i j
        = reluOutput (s.myBias + ∑ ki in Finset.range K, ∑ kj in Finset.range K,
            zeroPadded input N (K / 2) (i + ki) (j + kj) * s.myKernel.at ki kj) := by
  obtain ⟨-, -, -, hp, -, -, hk, -, ho⟩ := hv
  have hN : s.myOutput.length = N := ho.1
  have hK : s.myKernel.length = K := hk.1
  subst hN hK
  obtain ⟨-, -, -, hout⟩ := feedforward_spec s input hin hp ho
  obtain ⟨-, -, hpad⟩ := padInput_spec s input hp
  intro i j hi hj
  rw [hout i j hi hj]
  congr 2
  apply Finset.sum_congr rfl
  intro ki _
  apply Finset.sum_congr rfl
  intro kj _
  rw [hpad]

/-- C17. Same-padding overwrite: on a valid layer, whatever `inputPadded`
held, after a successful `feedforward` on an `N x N` input, with `p = K / 2`,
`inputPadded[r][c]` is `input[r-p][c-p]` for `p ≤ r < p + N`, `p ≤ c < p + N`
and `0` in every other cell; and `inputPadded` and `output` are the same
for any two valid layers of the same sizes with the same kernel and bias:
they depend on input, kernel and bias only, not on earlier calls. -/
theorem feedforward_overwrites_padding (s t : Conv) (N K : Nat) (input : Matrix2d)
    (hs : s.Valid N K) (ht : t.Valid N K) (hin : input.IsSquareOf N)
    (hkernel : t.myKernel = s.myKernel) (hbias : t.myBias = s.myBias) :
    (s.feedforward input).1 = true ∧
    (∀ r c, K / 2 ≤ r → r < K / 2 + N → K / 2 ≤ c → c < K / 2 + N →
      (s.feedforward input).2.myInputPadded.at r c = input.at (r - K / 2) (c - K / 2)) ∧
    (∀ r c, ¬ (K / 2 ≤ r ∧ r < K / 2 + N ∧ K / 2 ≤ c ∧ c < K / 2 + N) →
      (s.feedforward input).2.myInputPadded.at r c = 0) ∧
    (s.feedforward input).2.myInputPadded = (t.feedforward input).2.myInputPadded ∧
    (s.feedforward input).2.myOutput = (t.feedforward input).2.myOutput := by
  obtain ⟨hflag, hpad⟩ := forward_pass_padded s N K input hs hin
  obtain ⟨-, hpadt⟩ := forward_pass_padded t N K input ht hin
  have hvs := feedforward_valid s N K input hs hin
  have hvt := feedforward_valid t N K input ht hin
  refine ⟨hflag, ?_, ?_, ?_, ?_⟩
  · intro r c h1 h2 h3 h4
    rw [hpad, zeroPadded, if_pos ⟨h1, h2, h3, h4⟩]
  · intro r c hn
    rw [hpad, zeroPadded, if_neg hn]
  · apply Matrix2d.ext_of_isSquareOf hvs.2.2.2.1 hvt.2.2.2.1
    intro a b _ _
    rw [hpad, hpadt]
  · apply Matrix2d.ext_of_isSquareOf hvs.2.2.2.2.2.2.2.2 hvt.2.2.2.2.2.2.2.2
    intro a b ha hb
    rw [feedforward_output_formula s N K input hs hin a b ha hb,
      feedforward_output_formula t N K input ht hin a b ha hb, hkernel, hbias]

/-- C17 on the identity layer and the same layer with other contents in
`inputPadded` and `output`. -/
theorem feedforward_overwrites_padding_witness :
    identityLayer.Valid 3 3 ∧
    Conv.Valid { identityLayer with myInputPadded := onesMatrix 5, myOutput := onesMatrix 3 }
      3 3 ∧
    (identityLayer.feedforward identityInput).2.myInputPadded
      = (Conv.feedforward
          { identityLayer with myInputPadded := onesMatrix 5, myOutput := onesMatrix 3 }
          identityInput).2.myInputPadded :=
  ⟨by decide, by decide,
    (feedforward_overwrites_padding identityLayer
      { identityLayer with myInputPadded := onesMatrix 5, myOutput := onesMatrix 3 } 3 3
      identityInput (by decide) (by decide) (by decide) rfl rfl).2.2.2.1⟩

/-- Two states that agree outside the gradient members and on each gradient
member are equal. -/
theorem Conv.eq_of_forgetGradients {a b : Conv} (h : a.forgetGradients = b.forgetGradients)
    (h1 : a.myBiasGradient = b.myBiasGradient)
    (h2 : a.myKernelGradients = b.myKernelGradients)
    (h3 : a.myInputGradientsPadded = b.myInputGradientsPadded)
    (h4 : a.myInputGradients = b.myInputGradients) : a = b := by
  obtain ⟨e1, e2, e3, e4⟩ := Conv.of_forgetGradients h
  cases a
  cases b
  simp only [Conv.mk.injEq]
  simp only at e1 e2 e3 e4 h1 h2 h3 h4
  exact ⟨e1, h3, h4, e2, h2, e3, e4, h1⟩

/-- The backward pass on a valid layer, with the sizes `N` and `K`. -/
theorem backpropagate_gradients (s : Conv) (N K : Nat) (og : Matrix2d) (hv : s.Valid N K)
    (hog : og.IsSquareOf N) :
    (s.backpropagate og).1 = true ∧
    (s.backpropagate og).2.myKernelGradients.IsSquareOf K ∧
    (s.backpropagate og).2.myInputGradientsPadded.IsSquareOf (N + 2 * (K / 2)) ∧
    (s.backpropagate og).2.myInputGradients.IsSquareOf N ∧
    (∀ x, (s.backpropagate og).2.accumulated x
      = ∑ i in Finset.range N, ∑ j in Finset.range N,
          (biasContribution og i j x
            + ∑ ki in Finset.range K, ∑ kj in Finset.range K,
                contribution s.myInputPadded s.myKernel og i j ki kj x)) ∧
    ∀ a b, a < N → b < N →
      (s.backpropagate og).2.myInputGradients.at a b
        = (s.backpropagate og).2.myInputGradientsPadded.at (a + K / 2) (b + K / 2) := by
  obtain ⟨-, -, -, -, hgp, hg, hk, hkg, ho⟩ := hv
  have hN : s.myOutput.length = N := ho.1
  have hK : s.myKernel.length = K := hk.1
  subst hN hK
  obtain ⟨hflag, -, q1, q2, q3, hacc, hcrop⟩ := backpropagate_spec s og hog hkg hgp hg
  exact ⟨hflag, q1, q2, q3, hacc, hcrop⟩

/-- C18. Gradient reset: on a valid layer and an `N x N` `outputGradients`,
the state after a successful `backpropagate`, its `kernelGradients`,
`biasGradient`, `inputGradientsPadded` and `inputGradients` included, is the
same for any two valid layers that differ in the gradient members only; so
a second `backpropagate` with the same argument succeeds and leaves the
state the first one left. -/
theorem backpropagate_resets (s t : Conv) (N K : Nat) (outputGradients : Matrix2d)
    (hs : s.Valid N K) (ht : t.Valid N K) (hog : outputGradients.IsSquareOf N)
    (hsame : t.forgetGradients = s.forgetGradients) :
    (s.backpropagate outputGradients).1 = true ∧
    (s.backpropagate outputGradients).2.myKernelGradients
      = (t.backpropagate outputGradients).2.myKernelGradients ∧
    (s.backpropagate outputGradients).2.myBiasGradient
      = (t.backpropagate outputGradients).2.myBiasGradient ∧
    (s.backpropagate outputGradients).2.myInputGradientsPadded
      = (t.backpropagate outputGradients).2.myInputGradientsPadded ∧
    (s.backpropagate outputGradients).2.myInputGradients
      = (t.backpropagate outputGradients).2.myInputGradients ∧
    (s.backpropagate outputGradients).2 = (t.backpropagate outputGradients).2 ∧
    (s.backpropagate outputGradients).2.backpropagate outputGradients
      = (true, (s.backpropagate outputGradients).2) := by
  have key : ∀ a b : Conv, a.Valid N K → b.Valid N K → b.forgetGradients = a.forgetGradients →
      (a.backpropagate outputGradients).2 = (b.backpropagate outputGradients).2 := by
    intro a b ha hb hab
    obtain ⟨-, a1, a2, a3, aacc, acrop⟩ := backpropagate_gradients a N K outputGradients ha hog
    obtain ⟨-, b1, b2, b3, bacc, bcrop⟩ := backpropagate_gradients b N K outputGradients hb hog
    obtain ⟨e1, e2, -, -⟩ := Conv.of_forgetGradients hab
    have hacc : ∀ x, (a.backpropagate outputGradients).2.accumulated x
        = (b.backpropagate outputGradients).2.accumulated x := by
      intro x
      rw [aacc x, bacc x, e1, e2]
    have hgp : (a.backpropagate outputGradients).2.myInputGradientsPadded
        = (b.backpropagate outputGradients).2.myInputGradientsPadded :=
      Matrix2d.ext_of_isSquareOf a2 b2 (fun r c _ _ => hacc (.inputPadded r c))
    refine Conv.eq_of_forgetGradients ?_ (hacc .bias) ?_ hgp ?_
    · rw [backpropagate_frame, backpropagate_frame, hab]
    · exact Matrix2d.ext_of_isSquareOf a1 b1 (fun r c _ _ => hacc (.kernel r c))
    · apply Matrix2d.ext_of_isSquareOf a3 b3
      intro r c hr hc
      rw [acrop r c hr hc, bcrop r c hr hc, hgp]
  obtain ⟨hflag, -⟩ := backpropagate_gradients s N K outputGradients hs hog
  have hst := key s t hs ht hsame
  have hv2 := backpropagate_keeps_valid s N K outputGradients hs
  obtain ⟨hflag2, -⟩ :=
    backpropagate_gradients (s.backpropagate outputGradients).2 N K outputGradients hv2 hog
  have htwice := key s (s.backpropagate outputGradients).2 hs hv2
    (backpropagate_frame s outputGradients)
  refine ⟨hflag, by rw [hst], by rw [hst], by rw [hst], by rw [hst], hst, ?_⟩
  exact Prod.ext hflag2 htwice.symm

/-- C18 on the identity layer and the same layer with other gradient
contents. -/
theorem backpropagate_resets_witness :
    identityLayer.Valid 3 3 ∧
    Conv.Valid { identityLayer with myBiasGradient := 7, myKernelGradients := onesMatrix 3 }
      3 3 ∧
    identityInput.IsSquareOf 3 ∧
    (identityLayer.backpropagate identityInput).2
      = (Conv.backpropagate
          { identityLayer with myBiasGradient := 7, myKernelGradients := onesMatrix 3 }
          identityInput).2 :=
  ⟨by decide, by decide, by decide,
    (backpropagate_resets identityLayer
      { identityLayer with myBiasGradient := 7, myKernelGradients := onesMatrix 3 } 3 3
      identityInput (by decide) (by decide) (by decide) rfl).2.2.2.2.2.1⟩

/-- C19. The backward pass does not multiply by the derivative of the
rectifier: on a valid layer, for any two `N x N` forward inputs fed
beforehand, `backpropagate` on the same `N x N` `outputGradients` yields the
same `inputGradients` and the same `biasGradient`; they are the gather sum
of kernel and `outputGradients` and the sum of `outputGradients`, whatever
the forward output was, clamped to `0` or not. -/
theorem backpropagate_ignores_forward (s : Conv) (N K : Nat)
    (input1 input2 outputGradients : Matrix2d) (hv : s.Valid N K)
    (hin1 : input1.IsSquareOf N) (hin2 : input2.IsSquareOf N)
    (hog : outputGradients.IsSquareOf N) :
    ((s.feedforward input1).2.backpropagate outputGradients).2.inputGradients
      = ((s.feedforward input2).2.backpropagate outputGradients).2.inputGradients ∧
    ((s.feedforward input1).2.backpropagate outputGradients).2.myBiasGradient
      = ((s.feedforward input2).2.backpropagate outputGradients).2.myBiasGradient ∧
    (∀ a b, a < N → b < N →
      ((s.feedforward input1).2.backpropagate outputGradients).2.inputGradients.at a b
        = gatherGradient s.myKernel outputGradients N K a b) ∧
    ((s.feedforward input1).2.backpropagate outputGradients).2.myBiasGradient
      = ∑ i in Finset.range N, ∑ j in Finset.range N, outputGradients.at i j := by
  have key : ∀ input : Matrix2d, input.IsSquareOf N →
      ((s.feedforward input).2.backpropagate outputGradients).2.myInputGradients.IsSquareOf N ∧
      (∀ a b, a < N → b < N →
        ((s.feedforward input).2.backpropagate outputGradients).2.myInputGradients.at a b
          = gatherGradient s.myKernel outputGradients N K a b) ∧
      ((s.feedforward input).2.backpropagate outputGradients).2.myBiasGradient
        = ∑ i in Finset.range N, ∑ j in Finset.range N, outputGradients.at i j := by
    intro input hin
    have hv1 := feedforward_valid s N K input hv hin
    obtain ⟨-, -, hk, -, -, -⟩ := Conv.of_forgetForward (feedforward_frame s input)
    obtain ⟨-, -, -, q3, hacc, hcrop⟩ :=
      backpropagate_gradients (s.feedforward input).2 N K outputGradients hv1 hog
    obtain ⟨-, hbg⟩ := backpropagate_bias_sum (s.feedforward input).2 N K outputGradients hv1 hog
    refine ⟨q3, ?_, hbg⟩
    intro a b ha hb
    rw [hcrop a b ha hb, ← scatterGradient_eq_gatherGradient, ← hk]
    have := hacc (.inputPadded (a + K / 2) (b + K / 2))
    simp only [Conv.accumulated, biasContribution, contribution, zero_add] at this
    exact this
  obtain ⟨s1, g1, b1⟩ := key input1 hin1
  obtain ⟨s2, g2, b2⟩ := key input2 hin2
  refine ⟨?_, by rw [b1, b2], g1, b1⟩
  apply Matrix2d.ext_of_isSquareOf s1 s2
  intro a b ha hb
  rw [g1 a b ha hb, g2 a b ha hb]

/-- C19 on the identity layer: the forward output is the input for the
input of the identity test and is clamped to `0` everywhere for the negative
input, and the input gradients are the same after both. -/
theorem backpropagate_ignores_forward_witness :
    identityLayer.Valid 3 3 ∧ identityInput.IsSquareOf 3 ∧ negativeInput.IsSquareOf 3 ∧
    onesInput.IsSquareOf 3 ∧
    (identityLayer.feedforward negativeInput).2.output = initMatrixSize 3 ∧
    ((identityLayer.feedforward identityInput).2.backpropagate onesInput).2.inputGradients
      = ((identityLayer.feedforward negativeInput).2.backpropagate onesInput).2.inputGradients :=
  ⟨by decide, by decide, by decide, by decide, by decide!,
    (backpropagate_ignores_forward identityLayer 3 3 identityInput negativeInput onesInput
      (by decide) (by decide) (by decide) (by decide)).1⟩

/-! ## Index safety -/

theorem Matrix2d.at?_of_isSquareOf {m : Matrix2d} {n : Nat} (h : m.IsSquareOf n) {i j : Nat}
    (hi : i < n) (hj : j < n) : m.at? i j = some (m.at i j) := by
  have hi2 : i < m.length := by rw [h.1]; exact hi
  have hrow : (m[i]).length = n := h.2 _ (List.getElem_mem hi2)
  have hj2 : j < (m[i]).length := by rw [hrow]; exact hj
  unfold Matrix2d.at? Matrix2d.at
  rw [List.getElem?_eq_getElem hi2, List.getD_eq_getElem m [] hi2,
    List.getD_eq_getElem _ 0 hj2]
  exact List.getElem?_eq_getElem hj2

theorem Matrix2d.put?_of_isSquareOf {m : Matrix2d} {n : Nat} (h : m.IsSquareOf n) {i j : Nat}
    (hi : i < n) (hj : j < n) (v : ℚ) : m.put? i j v = some (m.put i j v) := by
  have hi2 : i < m.length := by rw [h.1]; exact hi
  have hrow : (m[i]).length = n := h.2 _ (List.getElem_mem hi2)
  have hj2 : j < (m[i]).length := by rw [hrow]; exact hj
  unfold Matrix2d.put? Matrix2d.put
  rw [List.getElem?_eq_getElem hi2, List.getD_eq_getElem m [] hi2]
  simp only [hj2, if_true]

theorem forLoopM_zero {σ : Type} (body : Nat → σ → Option σ) (init : σ) :
    forLoopM 0 body init = some init := by
  simp [forLoopM]

theorem forLoopM_succ {σ : Type} (n : Nat) (body : Nat → σ → Option σ) (init : σ) :
    forLoopM (n + 1) body init = (forLoopM n body init).bind (body n) := by
  simp [forLoopM, List.range_succ, List.foldlM_append]

/-- A checked loop whose body, under the invariant `I`, succeeds with the
result of the unchecked body succeeds with the result of the unchecked
loop. -/
theorem forLoopM_eq_some {σ : Type} (I : σ → Prop) (n : Nat) (bodyM : Nat → σ → Option σ)
    (body : Nat → σ → σ) (init : σ)
    (step : ∀ i st, i < n → I st → bodyM i st = some (body i st) ∧ I (body i st))
    (h0 : I init) :
    forLoopM n bodyM init = some (forLoop n body init) ∧ I (forLoop n body init) := by
  induction n with
  | zero => rw [forLoopM_zero, forLoop_zero]; exact ⟨rfl, h0⟩
  | succ k ih =>
    obtain ⟨h1, h2⟩ := ih (fun i st hi hI => step i st (Nat.lt_succ_of_lt hi) hI)
    obtain ⟨h3, h4⟩ := step k _ (Nat.lt_succ_self k) h2
    rw [forLoopM_succ, forLoop_succ, h1]
    exact ⟨h3, h4⟩

theorem bind_eq_some_of {α β : Type} {x : Option α} {f : α → Option β} {a : α} {b : β}
    (hx : x = some a) (hf : f a = some b) : (x >>= f) = some b := by
  subst hx
  exact hf

/-- On a valid layer and an `N x N` input no access of `padInput` is out of
bounds. -/
theorem padInputChecked_eq (s : Conv) (N K : Nat) (input : Matrix2d) (hv : s.Valid N K)
    (hin : input.IsSquareOf N) : s.padInputChecked input = some (s.padInput input) := by
  obtain ⟨-, -, -, hp, -, -, hk, -, ho⟩ := hv
  have hN : s.myOutput.length = N := ho.1
  have hK : s.myKernel.length = K := hk.1
  subst hN hK
  unfold Conv.padInputChecked Conv.padInput
  refine (forLoopM_eq_some (fun st : Conv => st.myInputPadded.IsSquareOf
    (s.myOutput.length + 2 * (s.myKernel.length / 2))) _ _ _ _
    (fun i st hi hI => ?_) (initMatrix_isSquareOf hp)).1
  refine forLoopM_eq_some (fun st : Conv => st.myInputPadded.IsSquareOf
    (s.myOutput.length + 2 * (s.myKernel.length / 2))) _ _ _ _
    (fun j st2 hj hI2 => ?_) hI
  have hi2 : i < s.myOutput.length := hi
  have hj2 : j < s.myOutput.length := hj
  have h1 := Matrix2d.at?_of_isSquareOf hin hi2 hj2
  have h2 := Matrix2d.put?_of_isSquareOf hI2
    (show i + s.myKernel.length / 2 < _ by omega)
    (show j + s.myKernel.length / 2 < _ by omega) (input.at i j)
  refine ⟨?_, Matrix2d.put_isSquareOf hI2 _ _ _⟩
  simp only [h1, h2, Option.bind_eq_bind, Option.some_bind, Option.pure_def]

/-- On a valid layer no access of `extractInputGradients` is out of bounds. -/
theorem extractInputGradientsChecked_eq (t : Conv) (N K : Nat) (hv : t.Valid N K) :
    t.extractInputGradientsChecked = some t.extractInputGradients := by
  have hN : t.myOutput.length = N := hv.2.2.2.2.2.2.2.2.1
  have hK : t.myKernel.length = K := hv.2.2.2.2.2.2.1.1
  unfold Conv.extractInputGradientsChecked Conv.extractInputGradients
  refine (forLoopM_eq_some (fun st : Conv => st.Valid N K) _ _ _ _
    (fun i st hi hI => ?_) hv).1
  refine forLoopM_eq_some (fun st : Conv => st.Valid N K) _ _ _ _
    (fun j st2 hj hI2 => ?_) hI
  obtain ⟨h1, h2, h3, hp, hgp, hg, hk, hkg, ho⟩ := hI2
  have hi2 : i < N := by rw [← hN]; exact hi
  have hj2 : j < N := by rw [← hN]; exact hj
  have r1 := Matrix2d.at?_of_isSquareOf hgp
    (show i + t.myKernel.length / 2 < _ by rw [hK]; omega)
    (show j + t.myKernel.length / 2 < _ by rw [hK]; omega)
  have r2 := Matrix2d.put?_of_isSquareOf hg hi2 hj2
    (st2.myInputGradientsPadded.at (i + t.myKernel.length / 2) (j + t.myKernel.length / 2))
  refine ⟨?_, h1, h2, h3, hp, hgp, Matrix2d.put_isSquareOf hg _ _ _, hk, hkg, ho⟩
  simp only [r1, r2, Option.bind_eq_bind, Option.some_bind, Option.pure_def]

/-- On a valid layer and an `N x N` input no access of `feedforward` is out
of bounds. -/
theorem feedforwardChecked_eq (s : Conv) (N K : Nat) (input : Matrix2d) (hv : s.Valid N K)
    (hin : input.IsSquareOf N) : s.feedforwardChecked input = some (s.feedforward input) := by
  have hN : s.myOutput.length = N := hv.2.2.2.2.2.2.2.2.1
  have hK : s.myKernel.length = K := hv.2.2.2.2.2.2.1.1
  have hv1 : (s.padInput input).Valid N K := by
    obtain ⟨h1, h2, h3, hp, hgp, hg, hk, hkg, ho⟩ := hv
    obtain ⟨hf, hsq, -⟩ := padInput_spec s input (by rw [hN, hK]; exact hp)
    obtain ⟨e1, e2, e3, e4, e5, -, -⟩ := Conv.of_forgetInputPadded hf
    refine ⟨h1, h2, h3, ?_, ?_, ?_, ?_, ?_, ?_⟩
    · rw [hN, hK] at hsq; exact hsq
    · rw [e1]; exact hgp
    · rw [e2]; exact hg
    · rw [e3]; exact hk
    · rw [e4]; exact hkg
    · rw [e5]; exact ho
  have hN1 : (s.padInput input).myOutput.length = N := hv1.2.2.2.2.2.2.2.2.1
  have hK1 : (s.padInput input).myKernel.length = K := hv1.2.2.2.2.2.2.1.1
  unfold Conv.feedforwardChecked Conv.feedforward
  rw [if_neg (by rw [shapeCheck_fails_iff, hN]; exact not_not.mpr hin),
    if_neg (by rw [shapeCheck_fails_iff, hN]; exact not_not.mpr hin),
    padInputChecked_eq s N K input hv hin]
  refine bind_eq_some_of rfl (bind_eq_some_of ?_ rfl)
  refine (forLoopM_eq_some (fun st : Conv => st.Valid N K) _ _ _ _
    (fun i st hi hI => ?_) hv1).1
  refine forLoopM_eq_some (fun st : Conv => st.Valid N K) _ _ _ _
    (fun j st2 hj hI2 => ?_) hI
  obtain ⟨h1, h2, h3, hp, hgp, hg, hk, hkg, ho⟩ := hI2
  have hi2 : i < N := by rw [← hN1]; exact hi
  have hj2 : j < N := by rw [← hN1]; exact hj
  have hsum := (forLoopM_eq_some (fun _ : ℚ => True) (s.padInput input).myKernel.length
    (fun ki sum => forLoopM (s.padInput input).myKernel.length (fun kj sum => do
      let x ← st2.myInputPadded.at? (i + ki) (j + kj)
      let w ← st2.myKernel.at? ki kj
      pure (sum + x * w)) sum)
    (fun ki sum => forLoop (s.padInput input).myKernel.length (fun kj sum =>
      sum + st2.myInputPadded.at (i + ki) (j + kj) * st2.myKernel.at ki kj) sum)
    st2.myBias
    (fun ki sum hki _ => ⟨(forLoopM_eq_some (fun _ : ℚ => True) _ _ _ _
      (fun kj sum2 hkj _ => by
        have hki2 : ki < K := by rw [← hK1]; exact hki
        have hkj2 : kj < K := by rw [← hK1]; exact hkj
        have r1 := Matrix2d.at?_of_isSquareOf hp (show i + ki < _ by omega)
          (show j + kj < _ by omega)
        have r2 := Matrix2d.at?_of_isSquareOf hk hki2 hkj2
        refine ⟨?_, trivial⟩
        simp only [r1, r2, Option.bind_eq_bind, Option.some_bind, Option.pure_def])
      trivial).1, trivial⟩) trivial).1
  refine ⟨?_, h1, h2, h3, hp, hgp, hg, hk, hkg, Matrix2d.put_isSquareOf ho _ _ _⟩
  exact bind_eq_some_of hsum
    (bind_eq_some_of (Matrix2d.put?_of_isSquareOf ho hi2 hj2 _) rfl)

theorem bind_eq_some_of_and {α β : Type} {x : Option α} {f : α → Option β} {a : α} {b : β}
    (P : α → Prop) (hx : x = some a ∧ P a) (hf : P a → f a = some b) :
    (x >>= f) = some b :=
  bind_eq_some_of hx.1 (hf hx.2)

/-- On a valid layer and `N x N` gradients no access of `backpropagate` is
out of bounds. -/
theorem backpropagateChecked_eq (s : Conv) (N K : Nat) (og : Matrix2d) (hv : s.Valid N K)
    (hog : og.IsSquareOf N) : s.backpropagateChecked og = some (s.backpropagate og) := by
  have hN : s.myOutput.length = N := hv.2.2.2.2.2.2.2.2.1
  have hK : s.myKernel.length = K := hv.2.2.2.2.2.2.1.1
  have hv0 : Conv.Valid
      { s with myInputGradientsPadded := initMatrix s.myInputGradientsPadded
               myInputGradients := initMatrix s.myInputGradients
               myKernelGradients := initMatrix s.myKernelGradients
               myBiasGradient := 0 } N K := by
    obtain ⟨h1, h2, h3, hp, hgp, hg, hk, hkg, ho⟩ := hv
    exact ⟨h1, h2, h3, hp, initMatrix_isSquareOf hgp, initMatrix_isSquareOf hg, hk,
      initMatrix_isSquareOf hkg, ho⟩
  unfold Conv.backpropagateChecked Conv.backpropagate
  rw [if_neg (by rw [shapeCheck_fails_iff, hN]; exact not_not.mpr hog),
    if_neg (by rw [shapeCheck_fails_iff, hN]; exact not_not.mpr hog)]
  refine bind_eq_some_of_and (fun t : Conv => t.Valid N K)
    (forLoopM_eq_some (fun st : Conv => st.Valid N K) _ _ _ _ (fun i st hi hI => ?_) hv0)
    (fun hvL => bind_eq_some_of (extractInputGradientsChecked_eq _ N K hvL) rfl)
  refine forLoopM_eq_some (fun st : Conv => st.Valid N K) _ _ _ _
    (fun j st2 hj hI2 => ?_) hI
  have hi2 : i < N := by rw [← hN]; exact hi
  have hj2 : j < N := by rw [← hN]; exact hj
  have hstart : Conv.Valid
      { st2 with myBiasGradient := st2.myBiasGradient + og.at i j } N K := hI2
  have hloops := forLoopM_eq_some (fun st : Conv => st.Valid N K) s.myKernel.length
    (fun ki st => forLoopM s.myKernel.length (fun kj st => do
      let oldKernelGradient ← st.myKernelGradients.at? ki kj
      let x ← st.myInputPadded.at? (i + ki) (j + kj)
      let kernelGradients ←
        st.myKernelGradients.put? ki kj (oldKernelGradient + x * og.at i j)
      let st := { st with myKernelGradients := kernelGradients }
      let oldInputGradient ← st.myInputGradientsPadded.at? (i + ki) (j + kj)
      let w ← st.myKernel.at? ki kj
      let inputGradients ←
        st.myInputGradientsPadded.put? (i + ki) (j + kj) (oldInputGradient + w * og.at i j)
      pure { st with myInputGradientsPadded := inputGradients }) st)
    (fun ki st => forLoop s.myKernel.length (fun kj st =>
      let kernelGradient :=
        st.myKernelGradients.at ki kj + st.myInputPadded.at (i + ki) (j + kj) * og.at i j
      let st := { st with
        myKernelGradients := st.myKernelGradients.put ki kj kernelGradient }
      let inputGradient :=
        st.myInputGradientsPadded.at (i + ki) (j + kj) + st.myKernel.at ki kj * og.at i j
      { st with
        myInputGradientsPadded :=
          st.myInputGradientsPadded.put (i + ki) (j + kj) inputGradient }) st)
    { st2 with myBiasGradient := st2.myBiasGradient + og.at i j }
    (fun ki st3 hki hI3 => forLoopM_eq_some (fun st : Conv => st.Valid N K) _ _ _ _
      (fun kj st4 hkj hI4 => by
        obtain ⟨h1, h2, h3, hp, hgp, hg, hk, hkg, ho⟩ := hI4
        have hki2 : ki < K := by rw [← hK]; exact hki
        have hkj2 : kj < K := by rw [← hK]; exact hkj
        have b1 : i + ki < N + 2 * (K / 2) := by omega
        have b2 : j + kj < N + 2 * (K / 2) := by omega
        refine ⟨?_, h1, h2, h3, hp, Matrix2d.put_isSquareOf hgp _ _ _, hg, hk,
          Matrix2d.put_isSquareOf hkg _ _ _, ho⟩
        exact bind_eq_some_of (Matrix2d.at?_of_isSquareOf hkg hki2 hkj2)
          (bind_eq_some_of (Matrix2d.at?_of_isSquareOf hp b1 b2)
            (bind_eq_some_of (Matrix2d.put?_of_isSquareOf hkg hki2 hkj2 _)
              (bind_eq_some_of (Matrix2d.at?_of_isSquareOf hgp b1 b2)
                (bind_eq_some_of (Matrix2d.at?_of_isSquareOf hk hki2 hkj2)
                  (bind_eq_some_of (Matrix2d.put?_of_isSquareOf hgp b1 b2 _) rfl))))))
      hI3) hstart
  exact ⟨bind_eq_some_of (Matrix2d.at?_of_isSquareOf hog hi2 hj2) hloops.1, hloops.2⟩

/-- C20. Index safety: on a layer valid for `(N, K)`, with arguments that
pass the shape check, no matrix access of `padInput`, `feedforward`,
`backpropagate` and `extractInputGradients` is out of bounds: the
bounds-checked members succeed, with the results of the members themselves.
The largest padded index of the correlation and scatter loops is
`N + K - 2`, the largest of padding and cropping is `N - 1 + K / 2`, and both
are below `paddedSize = N + 2 * (K / 2)`, for odd and even `K`. -/
theorem index_safety (s : Conv) (N K : Nat) (input outputGradients : Matrix2d)
    (hv : s.Valid N K) (hin : input.IsSquareOf N) (hog : outputGradients.IsSquareOf N) :
    s.padInputChecked input = some (s.padInput input) ∧
    s.feedforwardChecked input = some (s.feedforward input) ∧
    s.backpropagateChecked outputGradients = some (s.backpropagate outputGradients) ∧
    s.extractInputGradientsChecked = some s.extractInputGradients ∧
    (∀ i ki, i < N → ki < K → i + ki ≤ N + K - 2) ∧
    (∃ i ki, i < N ∧ ki < K ∧ i + ki = N + K - 2) ∧
    N + K - 2 < N + 2 * (K / 2) ∧
    (∀ i, i < N → i + K / 2 ≤ N - 1 + K / 2) ∧
    (∃ i, i < N ∧ i + K / 2 = N - 1 + K / 2) ∧
    N - 1 + K / 2 < N + 2 * (K / 2) := by
  obtain ⟨h1, h2, h3⟩ : 1 ≤ K ∧ K ≤ 11 ∧ K ≤ N := ⟨hv.1, hv.2.1, hv.2.2.1⟩
  refine ⟨padInputChecked_eq s N K input hv hin, feedforwardChecked_eq s N K input hv hin,
    backpropagateChecked_eq s N K outputGradients hv hog,
    extractInputGradientsChecked_eq s N K hv, ?_, ?_, ?_, ?_, ?_, ?_⟩
  · intro i ki hi hki
    omega
  · exact ⟨N - 1, K - 1, by omega, by omega, by omega⟩
  · omega
  · intro i hi
    omega
  · exact ⟨N - 1, by omega, rfl⟩
  · omega

/-- C20 on the identity layer; on the same layer with a `3 x 3` buffer in
place of the `5 x 5` padded one the bounds-checked `feedforward` fails. -/
theorem index_safety_witness :
    identityLayer.Valid 3 3 ∧ identityInput.IsSquareOf 3 ∧ onesInput.IsSquareOf 3 ∧
    identityLayer.feedforwardChecked identityInput
      = some (identityLayer.feedforward identityInput) ∧
    identityLayer.backpropagateChecked onesInput
      = some (identityLayer.backpropagate onesInput) ∧
    Conv.feedforwardChecked { identityLayer with myInputPadded := initMatrixSize 3 }
      identityInput = none :=
  ⟨by decide, by decide, by decide,
    (index_safety identityLayer 3 3 identityInput onesInput (by decide) (by decide)
      (by decide)).2.1,
    (index_safety identityLayer 3 3 identityInput onesInput (by decide) (by decide)
      (by decide)).2.2.1,
    by decide!⟩

/-! ## Matrices over an arbitrary scalar type -/

theorem MatrixOf.at_put_cell {α : Type} (A : Arith α) (m : MatrixOf α) (i j : Nat) (v : α)
    (a b : Nat) :
    (m.put i j v).at A a b =
      if a = i ∧ b = j ∧ i < m.length ∧ j < (m.getD i []).length then v else m.at A a b := by
  unfold MatrixOf.put MatrixOf.at
  simp only [List.getD_eq_getElem?_getD, List.getElem?_set]
  by_cases hia : i = a
  · subst hia
    by_cases hi : i < m.length
    · simp only [hi, if_true, Option.getD_some, List.getElem?_set, true_and, and_true]
      by_cases hjb : j = b
      · subst hjb
        by_cases hj : j < (m[i]?.getD []).length
        · simp [hj]
        · simp [hj, List.getElem?_eq_none (Nat.le_of_not_lt hj)]
      · have hbj : ¬ b = j := fun h => hjb h.symm
        simp [hjb, hbj]
    · simp [hi, List.getElem?_eq_none (Nat.le_of_not_lt hi)]
  · have hai : ¬ a = i := fun h => hia h.symm
    simp [hia, hai]

theorem MatrixOf.IsSquareOf.row_length {α : Type} {m : MatrixOf α} {n : Nat} (h : m.IsSquareOf n)
    {i : Nat} (hi : i < n) : (m.getD i []).length = n := by
  obtain ⟨hl, hr⟩ := h
  have hi2 : i < m.length := by omega
  rw [List.getD_eq_getElem m [] hi2]
  exact hr _ (List.getElem_mem hi2)

theorem MatrixOf.put_keeps_isSquareOf {α : Type} {m : MatrixOf α} {n : Nat} (h : m.IsSquareOf n)
    (i j : Nat) (v : α) : (m.put i j v).IsSquareOf n := by
  obtain ⟨hl, hr⟩ := h
  refine ⟨by simp [MatrixOf.put, hl], ?_⟩
  intro row hrow
  unfold MatrixOf.put at hrow
  by_cases hi : i < m.length
  · rcases List.mem_or_eq_of_mem_set hrow with h1 | h1
    · exact hr row h1
    · subst h1
      rw [List.length_set, List.getD_eq_getElem m [] hi]
      exact hr _ (List.getElem_mem hi)
  · rw [List.set_eq_of_length_le (Nat.le_of_not_lt hi)] at hrow
    exact hr row hrow

/-- Inside a square matrix a write at a cell followed by a read. -/
theorem MatrixOf.at_put_cell_of_isSquareOf {α : Type} (A : Arith α) {m : MatrixOf α} {n : Nat}
    (h : m.IsSquareOf n) (i j : Nat) (v : α) (a b : Nat) (hi : i < n) (hj : j < n) :
    (m.put i j v).at A a b = if a = i ∧ b = j then v else m.at A a b := by
  rw [MatrixOf.at_put_cell]
  by_cases hab : a = i ∧ b = j
  · obtain ⟨rfl, rfl⟩ := hab
    have h1 : a < m.length := by rw [h.1]; exact hi
    have h2 : b < (m.getD a []).length := by rw [h.row_length hi]; exact hj
    rw [if_pos ⟨rfl, rfl, h1, h2⟩, if_pos ⟨rfl, rfl⟩]
  · have : ¬ (a = i ∧ b = j ∧ i < m.length ∧ j < (m.getD i []).length) :=
      fun hh => hab ⟨hh.1, hh.2.1⟩
    rw [if_neg this, if_neg hab]

theorem initMatrixOf_isSquareOf {α : Type} (A : Arith α) {m : MatrixOf α} {n : Nat}
    (h : m.IsSquareOf n) : (initMatrixOf A m).IsSquareOf n := by
  refine ⟨by simp [initMatrixOf, h.1], ?_⟩
  intro row hrow
  simp only [initMatrixOf, List.mem_map] at hrow
  obtain ⟨r, hr, rfl⟩ := hrow
  simp [h.2 r hr]

theorem at_initMatrixOf {α : Type} (A : Arith α) (m : MatrixOf α) (a b : Nat) :
    (initMatrixOf A m).at A a b = A.zero := by
  unfold MatrixOf.at initMatrixOf
  simp only [List.getD_eq_getElem?_getD, List.getElem?_map]
  cases h1 : m[a]? with
  | none => simp
  | some row =>
    simp only [Option.map_some', Option.getD_some, List.getElem?_map]
    cases h2 : row[b]? <;> simp

theorem isMatrixSquareOf_iff {α : Type} (m : MatrixOf α) :
    isMatrixSquareOf m = true ↔ m.IsSquareOf m.length := by
  unfold isMatrixSquareOf MatrixOf.IsSquareOf
  simp [List.all_eq_true]

/-- The shape check fails exactly on the arguments that are not `n x n`. -/
theorem shapeCheckOf_fails_iff {α : Type} (n : Nat) (m : MatrixOf α) :
    (!matchDimensions n m.length || !isMatrixSquareOf m) = true ↔ ¬ m.IsSquareOf n := by
  constructor
  · intro h hsq
    have h1 : matchDimensions n m.length = true := by
      simp [matchDimensions, hsq.1]
    have h2 : isMatrixSquareOf m = true := by
      rw [isMatrixSquareOf_iff, hsq.1]
      exact hsq
    rw [h1, h2] at h
    simp at h
  · intro hsq
    by_cases h1 : matchDimensions n m.length = true
    · have hn : n = m.length := by simpa [matchDimensions] using h1
      have h2 : ¬ isMatrixSquareOf m = true := by
        rw [isMatrixSquareOf_iff, ← hn]
        exact hsq
      simp [h2]
    · simp [h1]

/-! ## Loop rules for arbitrary values -/

/-- A loop whose `i`-th iteration overwrites the cells `W i` of the observed
table `V` with the values `val`, and leaves the others, overwrites the cells
of all iterations. -/
theorem forLoop_fillOf {σ κ β : Type} (I : σ → Prop) (V : σ → κ → β) (W : Nat → κ → Prop)
    (val : κ → β) (n : Nat) (body : Nat → σ → σ) (init : σ)
    (step : ∀ i st, i < n → I st → I (body i st) ∧
      (∀ x, W i x → V (body i st) x = val x) ∧ (∀ x, ¬ W i x → V (body i st) x = V st x))
    (h0 : I init) :
    I (forLoop n body init) ∧
      (∀ x, (∃ i, i < n ∧ W i x) → V (forLoop n body init) x = val x) ∧
      (∀ x, (¬ ∃ i, i < n ∧ W i x) → V (forLoop n body init) x = V init x) := by
  induction n with
  | zero =>
    rw [forLoop_zero]
    refine ⟨h0, ?_, fun _ _ => rfl⟩
    rintro x ⟨i, hi, _⟩
    omega
  | succ k ih =>
    rw [forLoop_succ]
    obtain ⟨hI, hw, hn⟩ := ih (fun i st hi hI => step i st (Nat.lt_succ_of_lt hi) hI)
    obtain ⟨hI2, hw2, hn2⟩ := step k _ (Nat.lt_succ_self k) hI
    refine ⟨hI2, ?_, ?_⟩
    · rintro x ⟨i, hi, hx⟩
      by_cases hk : W k x
      · exact hw2 x hk
      · rw [hn2 x hk]
        have : i < k := by
          rcases Nat.lt_succ_iff_lt_or_eq.mp hi with h | h
          · exact h
          · subst h; exact absurd hx hk
        exact hw x ⟨i, this, hx⟩
    · intro x hx
      have hk : ¬ W k x := fun h => hx ⟨k, Nat.lt_succ_self k, h⟩
      rw [hn2 x hk]
      exact hn x (fun ⟨i, hi, h⟩ => hx ⟨i, Nat.lt_succ_of_lt hi, h⟩)

/-- A loop whose body changes each observed quantity `φ x` by `g i x`, a
function of its current value, changes it by the loop over the `g i x`. -/
theorem forLoop_track {σ ι β : Type} (I : σ → Prop) (φ : σ → ι → β) (g : Nat → ι → β → β)
    (n : Nat) (body : Nat → σ → σ) (init : σ)
    (step : ∀ i st, i < n → I st → I (body i st) ∧ ∀ x, φ (body i st) x = g i x (φ st x))
    (h0 : I init) :
    I (forLoop n body init) ∧
      ∀ x, φ (forLoop n body init) x = forLoop n (fun i v => g i x v) (φ init x) := by
  induction n with
  | zero =>
    refine ⟨by rw [forLoop_zero]; exact h0, fun x => ?_⟩
    rw [forLoop_zero, forLoop_zero]
  | succ k ih =>
    obtain ⟨hI, hφ⟩ := ih (fun i st hi hI => step i st (Nat.lt_succ_of_lt hi) hI)
    obtain ⟨hI2, hφ2⟩ := step k _ (Nat.lt_succ_self k) hI
    refine ⟨by rw [forLoop_succ]; exact hI2, fun x => ?_⟩
    rw [forLoop_succ, forLoop_succ, hφ2, hφ]

/-- A loop that changes the value in the one iteration `a` only. -/
theorem forLoop_once {β : Type} (n a : Nat) (h : β → β) (v : β) :
    forLoop n (fun k x => if k = a then h x else x) v = if a < n then h v else v := by
  induction n with
  | zero => simp [forLoop_zero]
  | succ k ih =>
    rw [forLoop_succ, ih]
    by_cases hak : k = a
    · subst hak
      simp
    · by_cases hlt : a < k
      · have : a < k + 1 := Nat.lt_succ_of_lt hlt
        simp [hak, hlt, this]
      · have : ¬ a < k + 1 := by omega
        simp [hak, hlt, this]

/-- Two loops with bodies that agree on the iterations made are equal. -/
theorem forLoop_congr {β : Type} (n : Nat) (f g : Nat → β → β) (v : β)
    (h : ∀ i, i < n → ∀ x, f i x = g i x) : forLoop n f v = forLoop n g v := by
  induction n with
  | zero => simp [forLoop_zero]
  | succ k ih =>
    rw [forLoop_succ, forLoop_succ, ih (fun i hi x => h i (Nat.lt_succ_of_lt hi) x),
      h k (Nat.lt_succ_self k)]

/-! ## Frames over an arbitrary scalar type -/

theorem ConvOf.fields_of_forgetInputPadded {α : Type} {a b : ConvOf α}
    (h : a.forgetInputPadded = b.forgetInputPadded) :
    a.myInputGradientsPadded = b.myInputGradientsPadded ∧
    a.myInputGradients = b.myInputGradients ∧ a.myKernel = b.myKernel ∧
    a.myKernelGradients = b.myKernelGradients ∧ a.myOutput = b.myOutput ∧
    a.myBias = b.myBias ∧ a.myBiasGradient = b.myBiasGradient := by
  simp only [ConvOf.forgetInputPadded, ConvOf.mk.injEq, true_and] at h
  exact h

theorem ConvOf.fields_of_forgetOutput {α : Type} {a b : ConvOf α}
    (h : a.forgetOutput = b.forgetOutput) :
    a.myInputPadded = b.myInputPadded ∧
    a.myInputGradientsPadded = b.myInputGradientsPadded ∧
    a.myInputGradients = b.myInputGradients ∧ a.myKernel = b.myKernel ∧
    a.myKernelGradients = b.myKernelGradients ∧
    a.myBias = b.myBias ∧ a.myBiasGradient = b.myBiasGradient := by
  simp only [ConvOf.forgetOutput, ConvOf.mk.injEq, true_and] at h
  exact h

theorem ConvOf.fields_of_forgetKernel {α : Type} {a b : ConvOf α}
    (h : a.forgetKernel = b.forgetKernel) :
    a.myInputPadded = b.myInputPadded ∧
    a.myInputGradientsPadded = b.myInputGradientsPadded ∧
    a.myInputGradients = b.myInputGradients ∧
    a.myKernelGradients = b.myKernelGradients ∧ a.myOutput = b.myOutput ∧
    a.myBias = b.myBias ∧ a.myBiasGradient = b.myBiasGradient := by
  simp only [ConvOf.forgetKernel, ConvOf.mk.injEq, true_and] at h
  exact h

/-- What `padInput` does: only `myInputPadded` changes, it keeps its size and
holds the zero-padded input. -/
theorem padInputOf_spec {α : Type} (A : Arith α) (s : ConvOf α) (input : MatrixOf α)
    (hp : s.myInputPadded.IsSquareOf (s.myOutput.length + 2 * (s.myKernel.length / 2))) :
    (s.padInput A input).forgetInputPadded = s.forgetInputPadded ∧
    (s.padInput A input).myInputPadded.IsSquareOf
      (s.myOutput.length + 2 * (s.myKernel.length / 2)) ∧
    ∀ r c, (s.padInput A input).myInputPadded.at A r c
      = zeroPaddedOf A input s.myOutput.length (s.myKernel.length / 2) r c := by
  let N := s.myOutput.length
  let p := s.myKernel.length / 2
  let I : ConvOf α → Prop := fun st =>
    st.forgetInputPadded = s.forgetInputPadded ∧ st.myInputPadded.IsSquareOf (N + 2 * p)
  let V : ConvOf α → Nat × Nat → α := fun st x => st.myInputPadded.at A x.1 x.2
  let val : Nat × Nat → α := fun x => input.at A (x.1 - p) (x.2 - p)
  let body : Nat → Nat → ConvOf α → ConvOf α := fun i j st =>
    { st with
      myInputPadded := st.myInputPadded.put (i + p) (j + p) (input.at A i j) }
  have inner : ∀ i st, i < N → I st →
      I (forLoop N (body i) st) ∧
      (∀ x, (∃ j, j < N ∧ x = (i + p, j + p)) → V (forLoop N (body i) st) x = val x) ∧
      (∀ x, (¬ ∃ j, j < N ∧ x = (i + p, j + p)) → V (forLoop N (body i) st) x = V st x) := by
    intro i st hi hI
    refine forLoop_fillOf I V (fun j x => x = (i + p, j + p)) val N _ st ?_ hI
    intro j st2 hj hI2
    refine ⟨⟨hI2.1, MatrixOf.put_keeps_isSquareOf hI2.2 _ _ _⟩, ?_, ?_⟩
    · rintro x rfl
      show (st2.myInputPadded.put (i + p) (j + p) (input.at A i j)).at A (i + p) (j + p) = _
      rw [MatrixOf.at_put_cell_of_isSquareOf A hI2.2 _ _ _ _ _ (by omega) (by omega)]
      simp [val]
    · intro x hx
      show (st2.myInputPadded.put (i + p) (j + p) (input.at A i j)).at A x.1 x.2 = _
      rw [MatrixOf.at_put_cell, if_neg]
      rintro ⟨h1, h2, _⟩
      exact hx (Prod.ext h1 h2)
  have outer := forLoop_fillOf I V (fun i x => ∃ j, j < N ∧ x = (i + p, j + p)) val N
    (fun i st => forLoop N (body i) st)
    { s with myInputPadded := initMatrixOf A s.myInputPadded } inner
    ⟨rfl, initMatrixOf_isSquareOf A hp⟩
  obtain ⟨⟨hf, hsq⟩, hw, hn⟩ := outer
  refine ⟨hf, hsq, ?_⟩
  intro r c
  unfold zeroPaddedOf
  by_cases hc : p ≤ r ∧ r < p + N ∧ p ≤ c ∧ c < p + N
  · rw [if_pos hc]
    exact hw (r, c) ⟨r - p, by omega, c - p, by omega, by
      apply Prod.ext <;> simp <;> omega⟩
  · rw [if_neg hc]
    have := hn (r, c) (by
      rintro ⟨i, hi, j, hj, hx⟩
      simp only [Prod.mk.injEq] at hx
      omega)
    refine this.trans ?_
    exact at_initMatrixOf A _ _ _

theorem feedforwardOf_of_not_square {α : Type} (A : Arith α) (s : ConvOf α)
    (input : MatrixOf α) (h : ¬ input.IsSquareOf s.myOutput.length) :
    s.feedforward A input = (false, s) := by
  unfold ConvOf.feedforward
  rw [if_pos ((shapeCheckOf_fails_iff _ _).mpr h)]

/-- What a `feedforward` call that passes the shape check does. -/
theorem feedforwardOf_spec {α : Type} (A : Arith α) (s : ConvOf α) (input : MatrixOf α)
    (hin : input.IsSquareOf s.myOutput.length)
    (hp : s.myInputPadded.IsSquareOf (s.myOutput.length + 2 * (s.myKernel.length / 2)))
    (ho : s.myOutput.IsSquareOf s.myOutput.length) :
    (s.feedforward A input).1 = true ∧
    (s.feedforward A input).2.forgetOutput = (s.padInput A input).forgetOutput ∧
    (s.feedforward A input).2.myOutput.IsSquareOf s.myOutput.length ∧
    ∀ i j, i < s.myOutput.length → j < s.myOutput.length →
      (s.feedforward A input).2.myOutput.at A i j
        = reluOutputOf A
            (forLoop s.myKernel.length (fun ki sum =>
              forLoop s.myKernel.length (fun kj sum =>
                A.add sum
                  (A.mul ((s.padInput A input).myInputPadded.at A (i + ki) (j + kj))
                    (s.myKernel.at A ki kj))) sum) s.myBias) := by
  obtain ⟨hf, -, -⟩ := padInputOf_spec A s input hp
  obtain ⟨-, -, hk1, -, ho1, hb1, -⟩ := ConvOf.fields_of_forgetInputPadded hf
  let s1 := s.padInput A input
  let N := s.myOutput.length
  let I : ConvOf α → Prop := fun st =>
    st.forgetOutput = s1.forgetOutput ∧ st.myOutput.IsSquareOf N
  let V : ConvOf α → Nat × Nat → α := fun st x => st.myOutput.at A x.1 x.2
  let val : Nat × Nat → α := fun x =>
    reluOutputOf A
      (forLoop s.myKernel.length (fun ki sum =>
        forLoop s.myKernel.length (fun kj sum =>
          A.add sum
            (A.mul (s1.myInputPadded.at A (x.1 + ki) (x.2 + kj)) (s.myKernel.at A ki kj)))
          sum) s.myBias)
  let body : Nat → Nat → ConvOf α → ConvOf α := fun i j st =>
    let sum :=
      forLoop s1.myKernel.length (fun ki sum =>
        forLoop s1.myKernel.length (fun kj sum =>
          A.add sum
            (A.mul (st.myInputPadded.at A (i + ki) (j + kj)) (st.myKernel.at A ki kj)))
          sum)
        st.myBias
    { st with myOutput := st.myOutput.put i j (reluOutputOf A sum) }
  have hbody : ∀ i j st, i < N → j < N → I st →
      I (body i j st) ∧ (∀ x, x = (i, j) → V (body i j st) x = val x) ∧
        (∀ x, ¬ x = (i, j) → V (body i j st) x = V st x) := by
    intro i j st hi hj hI
    obtain ⟨e1, -, -, e2, -, e3, -⟩ := ConvOf.fields_of_forgetOutput hI.1
    replace e2 : st.myKernel = s.myKernel := e2.trans hk1
    replace e3 : st.myBias = s.myBias := e3.trans hb1
    refine ⟨⟨hI.1, MatrixOf.put_keeps_isSquareOf hI.2 _ _ _⟩, ?_, ?_⟩
    · rintro x rfl
      show (st.myOutput.put i j _).at A i j = _
      rw [MatrixOf.at_put_cell_of_isSquareOf A hI.2 _ _ _ _ _ hi hj, if_pos ⟨rfl, rfl⟩,
        e1, e2, e3, hk1]
    · intro x hx
      show (st.myOutput.put i j _).at A x.1 x.2 = _
      rw [MatrixOf.at_put_cell, if_neg]
      rintro ⟨h1, h2, _⟩
      exact hx (Prod.ext h1 h2)
  have inner : ∀ i st, i < N → I st →
      I (forLoop N (body i) st) ∧
      (∀ x, (∃ j, j < N ∧ x = (i, j)) → V (forLoop N (body i) st) x = val x) ∧
      (∀ x, (¬ ∃ j, j < N ∧ x = (i, j)) → V (forLoop N (body i) st) x = V st x) := by
    intro i st hi hI
    exact forLoop_fillOf I V (fun j x => x = (i, j)) val N (body i) st
      (fun j st2 hj hI2 => hbody i j st2 hi hj hI2) hI
  have outer := forLoop_fillOf I V (fun i x => ∃ j, j < N ∧ x = (i, j)) val N
    (fun i st => forLoop N (body i) st) s1 inner ⟨rfl, by rw [ho1]; exact ho⟩
  have hrun : s.feedforward A input
      = (true, forLoop N (fun i st => forLoop N (body i) st) s1) := by
    unfold ConvOf.feedforward
    rw [if_neg (by rw [shapeCheckOf_fails_iff]; exact not_not.mpr hin)]
    show (true, forLoop s1.myOutput.length
      (fun i st => forLoop s1.myOutput.length (body i) st) s1) = _
    rw [ho1]
  rw [hrun]
  obtain ⟨⟨hfo, hsq⟩, hw, -⟩ := outer
  refine ⟨rfl, hfo, hsq, ?_⟩
  intro i j hi hj
  exact hw (i, j) ⟨i, hi, j, hj, rfl⟩

/-- C2, as stated, fails in `double`. On the `1 x 1` layer with kernel `1` and
bias `10^16` and the input `[[1]]` the code stores `10^16` in `output[0][0]`,
not the value `max(0, 10^16 + 1 * 1) = 10^16 + 1` of the formula. On the layer
with `N = 2`, `K = 2`, the all-ones kernel and bias `10^16` and the all-ones
input, the code stores `10^16` in `output[1][1]`, while the value
`10^16 + 4` of the formula is itself a `double`: the output is the sum as
the loops accumulate it, one rounded addition at a time. -/
theorem feedforward_output_is_rounded :
    largeBiasLayer.Valid 1 1 ∧ MatrixOf.IsSquareOf [[Double.finite 1]] 1 ∧
    (largeBiasLayer.feedforward binary64 [[.finite 1]]).1 = true ∧
    (largeBiasLayer.feedforward binary64 [[.finite 1]]).2.myOutput
      = [[.finite 10000000000000000]] ∧
    (largeBiasLayer.feedforward binary64 [[.finite 1]]).2.myOutput.at binary64 0 0
      ≠ .finite (max 0 (10000000000000000 + 1 * 1)) ∧
    largeBiasOnesLayer.Valid 2 2 ∧ onesOf2.IsSquareOf 2 ∧
    (largeBiasOnesLayer.feedforward binary64 onesOf2).1 = true ∧
    (largeBiasOnesLayer.feedforward binary64 onesOf2).2.myOutput
      = [[.finite 10000000000000000, .finite 10000000000000000],
         [.finite 10000000000000000, .finite 10000000000000000]] ∧
    roundDouble (max 0 (10000000000000000 + (1 * 1 + 1 * 1 + 1 * 1 + 1 * 1)))
      = .finite 10000000000000004 ∧
    (largeBiasOnesLayer.feedforward binary64 onesOf2).2.myOutput.at binary64 1 1
      ≠ .finite (max 0 (10000000000000000 + (1 * 1 + 1 * 1 + 1 * 1 + 1 * 1))) := by
  decide!

/-- C2, amended. On a valid layer and an `N x N` input `feedforward` returns
`true`; afterwards `inputPadded` is the input zero-padded by `K / 2` on each
side, kernel and bias are the ones before the call, and every `output[i][j]`
is the rectifier of the sum the loops compute in the arithmetic of the
scalar type: starting at the bias, the products
`inputPadded[i+ki][j+kj] * kernel[ki][kj]` are added one at a time, `ki`
outer and `kj` inner, each product and each addition being one operation of
that arithmetic (in `double`, rounded). -/
theorem feedforward_rounded_correlation {α : Type} (A : Arith α) (s : ConvOf α) (N K : Nat)
    (input : MatrixOf α) (hv : s.Valid N K) (hin : input.IsSquareOf N) :
    (s.feedforward A input).1 = true ∧
    (s.feedforward A input).2.myKernel = s.myKernel ∧
    (s.feedforward A input).2.myBias = s.myBias ∧
    (∀ r c, (s.feedforward A input).2.myInputPadded.at A r c
      = zeroPaddedOf A input N (K / 2) r c) ∧
    ∀ i j, i < N → j < N →
      (s.feedforward A input).2.myOutput.at A i j
        = reluOutputOf A
            (forLoop K (fun ki sum =>
              forLoop K (fun kj sum =>
                A.add sum
                  (A.mul ((s.feedforward A input).2.myInputPadded.at A (i + ki) (j + kj))
                    (s.myKernel.at A ki kj))) sum) s.myBias) := by
  obtain ⟨-, -, -, hp, -, -, hk, -, ho⟩ := hv
  have hN : s.myOutput.length = N := ho.1
  have hK : s.myKernel.length = K := hk.1
  subst hN hK
  obtain ⟨hflag, hframe, -, hout⟩ := feedforwardOf_spec A s input hin hp ho
  obtain ⟨hpf, -, hpad⟩ := padInputOf_spec A s input hp
  obtain ⟨e1, -, -, e2, -, e3, -⟩ := ConvOf.fields_of_forgetOutput hframe
  obtain ⟨-, -, f2, -, -, f3, -⟩ := ConvOf.fields_of_forgetInputPadded hpf
  refine ⟨hflag, e2.trans f2, e3.trans f3, ?_, ?_⟩
  · intro r c
    rw [e1]
    exact hpad r c
  · intro i j hi hj
    rw [hout i j hi hj, e1]

/-- C2, amended, in `double` on the `1 x 1` layer with bias `10^16`. -/
theorem feedforward_rounded_correlation_witness :
    largeBiasLayer.Valid 1 1 ∧ MatrixOf.IsSquareOf [[Double.finite 1]] 1 ∧
      (largeBiasLayer.feedforward binary64 [[.finite 1]]).1 = true :=
  ⟨by decide, by decide,
    (feedforward_rounded_correlation binary64 largeBiasLayer 1 1 [[.finite 1]] (by decide)
      (by decide)).1⟩

/-! ## Loops that touch a cell once -/

theorem forLoop_id {β : Type} (n : Nat) (v : β) : forLoop n (fun _ x => x) v = v := by
  induction n with
  | zero => rw [forLoop_zero]
  | succ k ih => rw [forLoop_succ, ih]

/-- Two nested loops exactly one of whose iterations, `(a, b)`, satisfies `P`
apply the change of that iteration. -/
theorem forLoop_pair_select {β : Type} (K : Nat) (P : Nat → Nat → Prop)
    [DecidablePred2 : ∀ a b, Decidable (P a b)] (a b : Nat) (ha : a < K) (hb : b < K)
    (h : Nat → Nat → β → β) (v : β)
    (hP : ∀ ki kj, ki < K → kj < K → (P ki kj ↔ ki = a ∧ kj = b)) :
    forLoop K (fun ki x => forLoop K (fun kj x => if P ki kj then h ki kj x else x) x) v
      = h a b v := by
  have inner : ∀ ki, ki < K → ∀ x : β,
      forLoop K (fun kj x => if P ki kj then h ki kj x else x) x
        = if ki = a then h a b x else x := by
    intro ki hki x
    by_cases hka : ki = a
    · subst hka
      rw [if_pos rfl, forLoop_congr K _ (fun kj y => if kj = b then h ki b y else y) x
        (fun kj hkj y => by
          show (if P ki kj then h ki kj y else y) = (if kj = b then h ki b y else y)
          by_cases hkb : kj = b
          · subst hkb
            rw [if_pos ((hP ki kj hki hkj).mpr ⟨rfl, rfl⟩), if_pos rfl]
          · rw [if_neg (fun hp => hkb ((hP ki kj hki hkj).mp hp).2), if_neg hkb]),
        forLoop_once, if_pos hb]
    · rw [if_neg hka, forLoop_congr K _ (fun _ y => y) x
        (fun kj hkj y => if_neg (fun hp => hka ((hP ki kj hki hkj).mp hp).1))]
      exact forLoop_id K x
  rw [forLoop_congr K _ (fun ki y => if ki = a then h a b y else y) v
    (fun ki hki y => inner ki hki y), forLoop_once, if_pos ha]

/-! ## Backward pass in an arbitrary arithmetic -/

theorem backpropagateOf_of_not_square {α : Type} (A : Arith α) (s : ConvOf α)
    (og : MatrixOf α) (h : ¬ og.IsSquareOf s.myOutput.length) :
    s.backpropagate A og = (false, s) := by
  unfold ConvOf.backpropagate
  rw [if_pos ((shapeCheckOf_fails_iff _ _).mpr h)]

/-- What an `optimize` call that passes the learning-rate check does. -/
theorem optimizeOf_spec {α : Type} (A : Arith α) (check : α → Bool) (s : ConvOf α)
    (learningRate : α) (h : check learningRate = true)
    (hk : s.myKernel.IsSquareOf s.myKernel.length) :
    (s.optimize A check learningRate).1 = true ∧
    (s.optimize A check learningRate).2.forgetKernel
      = ConvOf.forgetKernel
          { s with myBias := A.sub s.myBias (A.mul s.myBiasGradient learningRate) } ∧
    (s.optimize A check learningRate).2.myKernel.IsSquareOf s.myKernel.length ∧
    ∀ a b, a < s.myKernel.length → b < s.myKernel.length →
      (s.optimize A check learningRate).2.myKernel.at A a b
        = A.sub (s.myKernel.at A a b) (A.mul (s.myKernelGradients.at A a b) learningRate) := by
  let K := s.myKernel.length
  let s1 : ConvOf α :=
    { s with myBias := A.sub s.myBias (A.mul s.myBiasGradient learningRate) }
  let I : ConvOf α → Prop := fun st =>
    st.forgetKernel = s1.forgetKernel ∧ st.myKernel.IsSquareOf K
  let φ : ConvOf α → Nat × Nat → α := fun st x => st.myKernel.at A x.1 x.2
  let g : Nat → Nat → Nat × Nat → α → α := fun ki kj x v =>
    if x.1 = ki ∧ x.2 = kj then
      A.sub v (A.mul (s.myKernelGradients.at A ki kj) learningRate)
    else v
  let body : Nat → Nat → ConvOf α → ConvOf α := fun ki kj st =>
    let weight :=
      A.sub (st.myKernel.at A ki kj) (A.mul (st.myKernelGradients.at A ki kj) learningRate)
    { st with myKernel := st.myKernel.put ki kj weight }
  have hbody : ∀ ki kj st, ki < K → kj < K → I st →
      I (body ki kj st) ∧ ∀ x, φ (body ki kj st) x = g ki kj x (φ st x) := by
    intro ki kj st hki hkj hI
    obtain ⟨-, -, -, e1, -, -, -⟩ := ConvOf.fields_of_forgetKernel hI.1
    replace e1 : st.myKernelGradients = s.myKernelGradients := e1
    refine ⟨⟨hI.1, MatrixOf.put_keeps_isSquareOf hI.2 _ _ _⟩, ?_⟩
    intro x
    show (st.myKernel.put ki kj _).at A x.1 x.2
      = if x.1 = ki ∧ x.2 = kj then _ else st.myKernel.at A x.1 x.2
    rw [MatrixOf.at_put_cell_of_isSquareOf A hI.2 ki kj _ x.1 x.2 hki hkj, e1]
    by_cases hx : x.1 = ki ∧ x.2 = kj
    · rw [if_pos hx, if_pos hx]
      show _ = A.sub (st.myKernel.at A x.1 x.2) _
      rw [hx.1, hx.2]
    · rw [if_neg hx, if_neg hx]
  have inner : ∀ ki st, ki < K → I st →
      I (forLoop K (body ki) st) ∧ ∀ x, φ (forLoop K (body ki) st) x
        = forLoop K (fun kj v => g ki kj x v) (φ st x) := by
    intro ki st hki hI
    exact forLoop_track I φ (fun kj x v => g ki kj x v) K (body ki) st
      (fun kj st2 hkj hI2 => hbody ki kj st2 hki hkj hI2) hI
  obtain ⟨⟨hf, hsq⟩, hacc⟩ := forLoop_track I φ
    (fun ki x v => forLoop K (fun kj v => g ki kj x v) v) K
    (fun ki st => forLoop K (body ki) st) s1 inner ⟨rfl, hk⟩
  have hrun : s.optimize A check learningRate
      = (true, forLoop K (fun ki st => forLoop K (body ki) st) s1) := by
    unfold ConvOf.optimize
    rw [h]
    rfl
  rw [hrun]
  refine ⟨rfl, hf, hsq, ?_⟩
  intro a b ha hb
  have := hacc (a, b)
  rw [show φ (forLoop K (fun ki st => forLoop K (body ki) st) s1) (a, b)
    = (forLoop K (fun ki st => forLoop K (body ki) st) s1).myKernel.at A a b from rfl] at this
  rw [this]
  exact forLoop_pair_select K (fun ki kj => a = ki ∧ b = kj) a b ha hb
    (fun ki kj v => A.sub v (A.mul (s.myKernelGradients.at A ki kj) learningRate))
    (s.myKernel.at A a b)
    (fun ki kj _ _ => ⟨fun h => ⟨h.1.symm, h.2.symm⟩, fun h => ⟨h.1.symm, h.2.symm⟩⟩)

/-! ## Exact counting in binary64 -/

/-- C6, as stated, fails in `double`. On the `1 x 1` layer with bias `10^16`
and bias gradient `1`, `optimize(1)` succeeds and leaves the bias at `10^16`,
not at `bias - lr * biasGradient = 10^16 - 1`. On the `1 x 1` layer with bias
`9` and bias gradient `9`, `optimize(1 - 2^-53)` leaves the bias at `2^-49`,
while the value `9 * 2^-53` of `bias - lr * biasGradient` is itself a
`double`: the product is rounded before the subtraction. -/
theorem optimize_bias_is_rounded :
    largeBiasLayer.Valid 1 1 ∧ checkLearningRate (.finite 1) = true ∧
    (largeBiasLayer.optimize binary64 checkLearningRate (.finite 1)).1 = true ∧
    (largeBiasLayer.optimize binary64 checkLearningRate (.finite 1)).2.myBias
      = .finite 10000000000000000 ∧
    (largeBiasLayer.optimize binary64 checkLearningRate (.finite 1)).2.myBias
      ≠ .finite (10000000000000000 - 1 * 1) ∧
    nineLayer.Valid 1 1 ∧ checkLearningRate belowOne = true ∧
    (nineLayer.optimize binary64 checkLearningRate belowOne).1 = true ∧
    (nineLayer.optimize binary64 checkLearningRate belowOne).2.myBias
      = .finite (1 / 562949953421312) ∧
    roundDouble (9 - 9007199254740991 / 9007199254740992 * 9)
      = .finite (9 / 9007199254740992) ∧
    (nineLayer.optimize binary64 checkLearningRate belowOne).2.myBias
      ≠ .finite (9 - 9007199254740991 / 9007199254740992 * 9) := by
  decide!

/-- C6, amended. On a valid layer, `optimize(lr)` with an accepted learning
rate succeeds and sets the bias to `bias - biasGradient * lr` and every
`kernel[ki][kj]`, `ki, kj < K`, to
`kernel[ki][kj] - kernelGradients[ki][kj] * lr`, each computed by one
multiplication and one subtraction of the arithmetic of the scalar type (in
`double`, each rounded); the kernel keeps its size, and `kernelGradients`,
`biasGradient` and every other buffer are left as they were. -/
theorem optimize_rounded_step {α : Type} (A : Arith α) (check : α → Bool) (s : ConvOf α)
    (N K : Nat) (learningRate : α) (hv : s.Valid N K) (hlr : check learningRate = true) :
    (s.optimize A check learningRate).1 = true ∧
    (s.optimize A check learningRate).2.myBias
      = A.sub s.myBias (A.mul s.myBiasGradient learningRate) ∧
    (∀ ki kj, ki < K → kj < K →
      (s.optimize A check learningRate).2.myKernel.at A ki kj
        = A.sub (s.myKernel.at A ki kj) (A.mul (s.myKernelGradients.at A ki kj) learningRate)) ∧
    (s.optimize A check learningRate).2.myKernel.IsSquareOf K ∧
    (s.optimize A check learningRate).2.myKernelGradients = s.myKernelGradients ∧
    (s.optimize A check learningRate).2.myBiasGradient = s.myBiasGradient ∧
    (s.optimize A check learningRate).2.myInputPadded = s.myInputPadded ∧
    (s.optimize A check learningRate).2.myInputGradientsPadded = s.myInputGradientsPadded ∧
    (s.optimize A check learningRate).2.myInputGradients = s.myInputGradients ∧
    (s.optimize A check learningRate).2.myOutput = s.myOutput := by
  obtain ⟨-, -, -, -, -, -, hk, -, -⟩ := hv
  have hK : s.myKernel.length = K := hk.1
  subst hK
  obtain ⟨hflag, hframe, hsq, hker⟩ := optimizeOf_spec A check s learningRate hlr hk
  obtain ⟨e1, e2, e3, e4, e5, e6, e7⟩ := ConvOf.fields_of_forgetKernel hframe
  exact ⟨hflag, e6, hker, hsq, e4, e7, e1, e2, e3, e5⟩

/-- C6, amended, in `double` on the `1 x 1` layer with bias `10^16`. -/
theorem optimize_rounded_step_witness :
    largeBiasLayer.Valid 1 1 ∧ checkLearningRate (.finite 1) = true ∧
      (largeBiasLayer.optimize binary64 checkLearningRate (.finite 1)).2.myBias
        = binary64.sub largeBiasLayer.myBias
            (binary64.mul largeBiasLayer.myBiasGradient (.finite 1)) :=
  ⟨by decide, by decide,
    (optimize_rounded_step binary64 checkLearningRate largeBiasLayer 1 1 (.finite 1)
      (by decide) (by decide)).2.1⟩

end ConvLayer
